import Mathlib

/-!
# Connection lifecycle and pooling engine of libvmod-redis (`src/core.c`)

A shallow embedding of the registries, the validity check, the private cache
strategy and the shared pool strategy of `core.c`, followed by the properties
of the specification that are settled against it.

Conventions of the embedding

* A `VTAILQ` is a `List`: the forward chain of the queue, from `vtqh_first`
  along `vtqe_next`; head of the queue is head of the list.
  `VTAILQ_INSERT_TAIL q x` is `q ++ [x]`. `VTAILQ_REMOVE q x` unlinks `x`
  through the back pointer of `x` itself and performs no membership test: `x`
  leaves the queue that holds it, which is `q.erase x` when that queue is `q`
  (an intrusive queue holds an object at most once, so this is the object).
  The tail pointers `vtqh_last` are not represented.
* Heap objects that are compared by pointer carry the serial number of their
  allocation (`id`), supplied by the environment at `ALLOC_OBJ`.
* Everything the code reads from outside (the clock, the error flag of a
  hiredis link, `poll`, the outcome of `redisConnect*`) is a field of `Env`.
* A failed assertion (`AN`, `AZ`, `CHECK_OBJ_NOTNULL`) is the outcome `abort`.
* `pthread_cond_wait` followed by `goto retry` is the outcome `waiting`: the
  call is suspended with the pool as it is, and `shared_retry` is what runs
  when the thread is woken up.
-/

namespace VmodRedis

/-! ## Data model (`core.h`) -/

/-- Modelled from the spec: `redis_server_t` of `core.h`, which is not among the
sources. The fields are those `core.c` accesses; `ttl` is the "TTL seconds
(0 = unbounded)" of section 3, `timeout` the connect timeout in milliseconds,
`location` the endpoint text. -/
structure redis_server_t where
  tag : String
  location : String
  timeout : Int
  ttl : Nat
deriving DecidableEq, Repr

/-- Modelled from the spec: `redis_context_t` of `core.h`, which is not among the
sources: the owning server, the generation (`version`) and the creation
timestamp (`tst`). `id` is the identity of the heap object (and of the hiredis
link `rcontext` it owns). -/
structure redis_context_t where
  id : Nat
  server : redis_server_t
  version : Nat
  tst : Int
deriving DecidableEq, Repr

/-- Modelled from the spec: `redis_context_pool_t` of `core.h`, which is not
among the sources: tag, live count, free list and busy list (the mutex and the
condition variable are represented by the step structure of the embedding). -/
structure redis_context_pool_t where
  tag : String
  ncontexts : Nat
  free_contexts : List redis_context_t
  busy_contexts : List redis_context_t
deriving DecidableEq, Repr

/-- Modelled from the spec: `vcl_priv_t` of `core.h`, which is not among the
sources: the server registry, the `shared` flag, the capacity and the pool
registry. -/
structure vcl_priv_t where
  servers : List redis_server_t
  shared_contexts : Nat
  max_contexts : Nat
  pools : List redis_context_pool_t
deriving DecidableEq, Repr

/-- Modelled from the spec: `thread_state_t` of `core.h`, which is not among the
sources: the private cache of a worker (live count and list) and the tag of
the request in progress (`none` is the `NULL` wildcard). -/
structure thread_state_t where
  ncontexts : Nat
  contexts : List redis_context_t
  tag : Option String
deriving DecidableEq, Repr

/-- What the code reads from outside during one call. -/
structure Env where
  /-- The clock, `time(NULL)`. -/
  now : Int
  /-- The error flag `context->rcontext->err` of the link of a context. -/
  err : redis_context_t → Int
  /-- The return value of `poll(&fds, 1, 0)` on the link of a context. -/
  poll_ret : redis_context_t → Int
  /-- The field `fds.revents` after that `poll`. -/
  poll_revents : redis_context_t → Nat
  /-- The flag `result->err` of the link `redisConnect*WithTimeout` hands back. -/
  connect_err : redis_server_t → Int
  /-- The serial number of the object `ALLOC_OBJ` creates in `new_redis_context`. -/
  alloc : Nat

/-- Observable effects of a call, in program order. -/
inductive Event where
  | free_redis_context (context : redis_context_t)
  | new_rcontext (server : redis_server_t)
  | log_no_server (tag : Option String)
deriving DecidableEq, Repr

/-- How a call to `get_context` ends: it returns a context or `NULL`, it is
suspended in `pthread_cond_wait`, or an assertion fails. -/
inductive Outcome where
  | returned (result : Option redis_context_t)
  | waiting
  | abort
deriving DecidableEq, Repr

/-! ## Machine arithmetic

The live counts and the capacity are `unsigned` (32 bits), as the parameter
`max_contexts` of `new_vcl_priv` is. -/

/-- Decrement `n--` of an `unsigned`. -/
def uint_dec (n : Nat) : Nat := (n + 4294967295) % 4294967296

/-- Increment `n++` of an `unsigned`. -/
def uint_inc (n : Nat) : Nat := (n + 1) % 4294967296

/-- The bit `POLLHUP` of `poll.h`. -/
def POLLHUP : Nat := 0x010

/-- The bit `POLLOUT` of `poll.h`. -/
def POLLOUT : Nat := 0x004

/-! ## Constructors -/

/-- Source function `new_redis_context`: the object gets the serial number `id`. -/
def new_redis_context (id : Nat) (server : redis_server_t) (version : Nat) (tst : Int) :
    redis_context_t :=
  { id := id, server := server, version := version, tst := tst }

/-- Source function `new_redis_context_pool`. -/
def new_redis_context_pool (tag : String) : redis_context_pool_t :=
  { tag := tag, ncontexts := 0, free_contexts := [], busy_contexts := [] }

/-- Source function `new_thread_state`. -/
def new_thread_state : thread_state_t :=
  { ncontexts := 0, contexts := [], tag := none }

/-! ## Utilities -/

/-- Source function `is_valid_context`. -/
def is_valid_context (env : Env) (context : redis_context_t) (version : Nat) (now : Int) :
    Bool :=
  if env.err context ≠ 0 ∨ context.version ≠ version ∨
      (context.server.ttl > 0 ∧ now - context.tst > (context.server.ttl : Int)) then
    false
  else if env.poll_ret context ≠ 1 ∨ env.poll_revents context &&& POLLHUP ≠ 0 then
    false
  else
    true

/-- The test `(tag == NULL) || (strcmp(tag, entry_tag) == 0)`. -/
def tag_matches (tag : Option String) (entry_tag : String) : Bool :=
  match tag with
  | none => true
  | some t => t == entry_tag

/-- The loop `VTAILQ_FOREACH ... if (match) { VTAILQ_REMOVE; ...; break; }` shared by
the three selections of `core.c`: the first entry satisfying `p`, and the queue
without it; `none` when the loop ends without a match. -/
def tailq_take {α : Type} (p : α → Bool) : List α → Option (α × List α)
  | [] => none
  | x :: xs =>
    if p x then some (x, xs)
    else
      match tailq_take p xs with
      | none => none
      | some (y, rest) => some (y, x :: rest)

/-- The whole selection: the entry found is re-inserted at the tail. -/
def tailq_select {α : Type} (p : α → Bool) (q : List α) : Option α × List α :=
  match tailq_take p q with
  | none => (none, q)
  | some (x, rest) => (some x, rest ++ [x])

/-- Source function `unsafe_get_server`: the result and the server registry afterwards. -/
def unsafe_get_server (servers : List redis_server_t) (tag : Option String) :
    Option redis_server_t × List redis_server_t :=
  tailq_select (fun iserver => tag_matches tag iserver.tag) servers

/-- Source function `unsafe_get_pool`: the result and the pool registry afterwards. -/
def unsafe_get_pool (pools : List redis_context_pool_t) (tag : Option String) :
    Option redis_context_pool_t × List redis_context_pool_t :=
  tailq_select (fun ipool => tag_matches tag ipool.tag) pools

/-- Source function `new_rcontext`: `true` when a link was established (`result->err == 0`). -/
def new_rcontext (env : Env) (server : redis_server_t) : Bool :=
  env.connect_err server == 0

/-! ## Results of a call -/

/-- State of the free-list scan of `get_shared_context` when the `while` loop
exits: the local `result`, the pool, and the contexts destroyed on the way. -/
structure scan_result where
  result : Option redis_context_t
  pool : redis_context_pool_t
  events : List Event
deriving DecidableEq

/-- What the body of `get_shared_context` (from the label `retry` on) leaves
behind: how it ended, the pool it worked on, the server registry, the effects. -/
structure pool_result where
  outcome : Outcome
  pool : redis_context_pool_t
  servers : List redis_server_t
  events : List Event
deriving DecidableEq

/-- What a call to `get_context` leaves behind. -/
structure call_result where
  outcome : Outcome
  config : vcl_priv_t
  state : thread_state_t
  events : List Event
deriving DecidableEq

/-! ## Private cache strategy -/

/-- The tail of `get_private_context`: `new_rcontext`, and on success
`new_redis_context`, `VTAILQ_INSERT_TAIL`, `ncontexts++`. -/
def private_create (env : Env) (config : vcl_priv_t) (state : thread_state_t)
    (server : redis_server_t) (version : Nat) (now : Int) (events : List Event) : call_result :=
  if new_rcontext env server then
    let result := new_redis_context env.alloc server version now
    { outcome := Outcome.returned (some result)
      config := config
      state := { state with contexts := state.contexts ++ [result]
                            ncontexts := uint_inc state.ncontexts }
      events := events ++ [Event.new_rcontext server] }
  else
    { outcome := Outcome.returned none
      config := config
      state := state
      events := events ++ [Event.new_rcontext server] }

/-- The block `if (result == NULL) { ... }` of `get_private_context`: server
selection, eviction of the cache head when no slot is available, creation. -/
def private_new (env : Env) (config : vcl_priv_t) (state : thread_state_t)
    (version : Nat) (now : Int) (events : List Event) : call_result :=
  match unsafe_get_server config.servers state.tag with
  | (none, servers) =>
    { outcome := Outcome.returned none
      config := { config with servers := servers }
      state := state
      events := events ++ [Event.log_no_server state.tag] }
  | (some server, servers) =>
    if state.ncontexts ≥ config.max_contexts then
      match state.contexts with
      | [] =>
        { outcome := Outcome.abort
          config := { config with servers := servers }
          state := state
          events := events }
      | icontext :: _ =>
        private_create env { config with servers := servers }
          { state with contexts := state.contexts.erase icontext
                       ncontexts := uint_dec state.ncontexts }
          server version now (events ++ [Event.free_redis_context icontext])
    else
      private_create env { config with servers := servers } state server version now events

/-- Source function `get_private_context`. -/
def get_private_context (env : Env) (config : vcl_priv_t) (state : thread_state_t)
    (version : Nat) : call_result :=
  let now := env.now
  match tailq_select (fun icontext => tag_matches state.tag icontext.server.tag)
      state.contexts with
  | (some result, contexts) =>
    if is_valid_context env result version now then
      { outcome := Outcome.returned (some result)
        config := config
        state := { state with contexts := contexts }
        events := [] }
    else
      private_new env config
        { state with contexts := contexts.erase result
                     ncontexts := uint_dec state.ncontexts }
        version now [Event.free_redis_context result]
  | (none, contexts) =>
    private_new env config { state with contexts := contexts } version now []

/-! ## Shared pool strategy -/

/-- The loop `while (!VTAILQ_EMPTY(&pool->free_contexts))` of `get_shared_context`.
The first argument is `pool.free_contexts`, on which the loop recurses. -/
def free_scan (env : Env) (version : Nat) (now : Int) :
    List redis_context_t → redis_context_pool_t → scan_result
  | [], pool => { result := none, pool := { pool with free_contexts := [] }, events := [] }
  | result :: rest, pool =>
    let busy := pool.busy_contexts ++ [result]
    if is_valid_context env result version now then
      { result := some result
        pool := { pool with free_contexts := rest, busy_contexts := busy }
        events := [] }
    else
      let s := free_scan env version now rest
        { pool with free_contexts := rest
                    busy_contexts := busy.erase result
                    ncontexts := uint_dec pool.ncontexts }
      { s with events := Event.free_redis_context result :: s.events }

/-- The tail of `get_shared_context`: `new_rcontext`, and on success
`new_redis_context`, `VTAILQ_INSERT_TAIL` into the busy list, `ncontexts++`. -/
def shared_create (env : Env) (pool : redis_context_pool_t) (servers : List redis_server_t)
    (server : redis_server_t) (version : Nat) (now : Int) (events : List Event) : pool_result :=
  if new_rcontext env server then
    let result := new_redis_context env.alloc server version now
    { outcome := Outcome.returned (some result)
      pool := { pool with busy_contexts := pool.busy_contexts ++ [result]
                          ncontexts := uint_inc pool.ncontexts }
      servers := servers
      events := events ++ [Event.new_rcontext server] }
  else
    { outcome := Outcome.returned none
      pool := pool
      servers := servers
      events := events ++ [Event.new_rcontext server] }

/-- The block `if (result == NULL) { ... }` of `get_shared_context`: server
selection, then, when no slot is available, eviction of the head of the free
list or `pthread_cond_wait`, then creation. -/
def shared_new (max_contexts : Nat) (env : Env) (tag : Option String) (version : Nat)
    (now : Int) (servers : List redis_server_t) (pool : redis_context_pool_t)
    (events : List Event) : pool_result :=
  match unsafe_get_server servers tag with
  | (none, servers1) =>
    { outcome := Outcome.returned none
      pool := pool, servers := servers1
      events := events ++ [Event.log_no_server tag] }
  | (some server, servers1) =>
    if pool.ncontexts ≥ max_contexts then
      match pool.free_contexts with
      | icontext :: _ =>
        shared_create env
          { pool with free_contexts := pool.free_contexts.erase icontext
                      ncontexts := uint_dec pool.ncontexts }
          servers1 server version now (events ++ [Event.free_redis_context icontext])
      | [] =>
        { outcome := Outcome.waiting
          pool := pool, servers := servers1, events := events }
    else
      shared_create env pool servers1 server version now events

/-- The body of `get_shared_context` from the label `retry` to the release of the
pool lock, on the pool selected at entry; `now` is the local set at entry. It
runs at the call and again each time the thread leaves `pthread_cond_wait`. -/
def shared_retry (max_contexts : Nat) (env : Env) (tag : Option String) (version : Nat)
    (now : Int) (servers : List redis_server_t) (pool : redis_context_pool_t) : pool_result :=
  let s := free_scan env version now pool.free_contexts pool
  match s.result with
  | some result =>
    { outcome := Outcome.returned (some result)
      pool := s.pool, servers := servers, events := s.events }
  | none => shared_new max_contexts env tag version now servers s.pool s.events

/-- Source function `get_shared_context`, up to its return or its first
`pthread_cond_wait`. The pool selected is the last entry of the registry after
`unsafe_get_pool`; the pool object is updated in place. -/
def get_shared_context (env : Env) (config : vcl_priv_t) (state : thread_state_t)
    (version : Nat) : call_result :=
  let now := env.now
  match unsafe_get_pool config.pools state.tag with
  | (some pool, pools) =>
    let r := shared_retry config.max_contexts env state.tag version now config.servers pool
    { outcome := r.outcome
      config := { config with servers := r.servers, pools := pools.dropLast ++ [r.pool] }
      state := state
      events := r.events }
  | (none, pools) =>
    { outcome := Outcome.returned none
      config := { config with pools := pools }
      state := state
      events := [Event.log_no_server state.tag] }

/-- The effect of `VTAILQ_REMOVE(_, context, list)` on a pool whose queues are
not the one the macro names: the context is unlinked from the list that holds
it, if any. -/
def pool_unlink (pool : redis_context_pool_t) (context : redis_context_t) :
    redis_context_pool_t :=
  { pool with free_contexts := pool.free_contexts.erase context
              busy_contexts := pool.busy_contexts.erase context }

/-- The last four statements of `free_shared_context` on the pool selected:
`VTAILQ_REMOVE(&pool->busy_contexts, context, list)` unlinks the context from
the list that holds it (the code does not test that this is the busy list of
the pool), then `VTAILQ_INSERT_TAIL` appends it to the free list. The live
count is not touched. -/
def pool_release (pool : redis_context_pool_t) (context : redis_context_t) :
    redis_context_pool_t :=
  { pool with busy_contexts := pool.busy_contexts.erase context
              free_contexts := pool.free_contexts.erase context ++ [context] }

/-- Source function `free_shared_context`; `none` when `AN(pool)` fails. The
pool is selected by the tag of the server of the context; the context is
unlinked from whichever list of whichever pool holds it and appended to the
free list of the pool selected. -/
def free_shared_context (config : vcl_priv_t) (context : redis_context_t) :
    Option vcl_priv_t :=
  match unsafe_get_pool config.pools (some context.server.tag) with
  | (none, _) => none
  | (some pool, pools) =>
    some { config with
      pools := pools.dropLast.map (fun p => pool_unlink p context) ++
        [pool_release pool context] }

/-! ## Facade -/

/-- Source function `get_context`. -/
def get_context (env : Env) (config : vcl_priv_t) (state : thread_state_t)
    (version : Nat) : call_result :=
  if config.shared_contexts ≠ 0 then get_shared_context env config state version
  else get_private_context env config state version

/-- Source function `free_context`. -/
def free_context (config : vcl_priv_t) (state : thread_state_t)
    (context : redis_context_t) : Option (vcl_priv_t × thread_state_t) :=
  if config.shared_contexts ≠ 0 then
    (free_shared_context config context).map (fun config1 => (config1, state))
  else some (config, state)

/-! ## Sequences of calls on one pool -/

/-- One step on a pool: the body of an acquire (at the call, or on wake-up with
the `now` of the call), or a release. -/
inductive pool_op where
  | acquire (env : Env) (tag : Option String) (version : Nat) (now : Int)
  | release (context : redis_context_t)

/-- A pool together with the server registry its acquires select from. -/
structure pool_sys where
  pool : redis_context_pool_t
  servers : List redis_server_t

/-- Effect of one step. -/
def pool_step (max_contexts : Nat) (op : pool_op) (s : pool_sys) : pool_sys :=
  match op with
  | pool_op.acquire env tag version now =>
    let r := shared_retry max_contexts env tag version now s.servers s.pool
    { pool := r.pool, servers := r.servers }
  | pool_op.release context =>
    { pool := pool_release s.pool context, servers := s.servers }

/-- The states after each step of a sequence. -/
def pool_trace (max_contexts : Nat) : List pool_op → pool_sys → List pool_sys
  | [], _ => []
  | op :: ops, s =>
    pool_step max_contexts op s :: pool_trace max_contexts ops (pool_step max_contexts op s)

/-! ## Invariants and runs -/

/-- Accounting invariant of a pool (section 3): live count = |free| + |busy|. -/
def pool_accounting (pool : redis_context_pool_t) : Prop :=
  pool.ncontexts = pool.free_contexts.length + pool.busy_contexts.length

instance (pool : redis_context_pool_t) : Decidable (pool_accounting pool) :=
  inferInstanceAs
    (Decidable (pool.ncontexts = pool.free_contexts.length + pool.busy_contexts.length))

/-- An intrusive queue entry is in one place only: no context occurs twice in
the free and busy lists of the pool taken together. -/
def pool_nodup (pool : redis_context_pool_t) : Prop :=
  (pool.free_contexts ++ pool.busy_contexts).Nodup

instance (pool : redis_context_pool_t) : Decidable (pool_nodup pool) :=
  inferInstanceAs (Decidable (pool.free_contexts ++ pool.busy_contexts).Nodup)

/-- No context of the pool carries the serial the environment allocates next. -/
def pool_fresh (env : Env) (pool : redis_context_pool_t) : Prop :=
  ∀ x ∈ pool.free_contexts ++ pool.busy_contexts, x.id ≠ env.alloc

instance (env : Env) (pool : redis_context_pool_t) : Decidable (pool_fresh env pool) :=
  inferInstanceAs (Decidable (∀ x ∈ pool.free_contexts ++ pool.busy_contexts, x.id ≠ env.alloc))

/-- The step is not a release of `context`. -/
def not_release (context : redis_context_t) (op : pool_op) : Prop :=
  match op with
  | pool_op.acquire _ _ _ _ => True
  | pool_op.release x => x ≠ context

instance (context : redis_context_t) (op : pool_op) : Decidable (not_release context op) :=
  match op with
  | pool_op.acquire _ _ _ _ => isTrue trivial
  | pool_op.release x => inferInstanceAs (Decidable (x ≠ context))

/-- Along the run, every acquire allocates a serial that no context of the pool
carries at that moment. -/
def ops_fresh (max_contexts : Nat) : List pool_op → pool_sys → Bool
  | [], _ => true
  | op :: ops, s =>
    (match op with
      | pool_op.acquire env _ _ _ => decide (pool_fresh env s.pool)
      | pool_op.release _ => true) &&
    ops_fresh max_contexts ops (pool_step max_contexts op s)

/-- The results of `k` consecutive calls of a selection on a registry, in call
order, and the registry after the last call. -/
def repeat_select {α : Type} (select : List α → Option α × List α) :
    Nat → List α → List (Option α) × List α
  | 0, q => ([], q)
  | k + 1, q =>
    let r := select q
    let rs := repeat_select select k r.2
    (r.1 :: rs.1, rs.2)

/-! ## Concrete inputs on which the theorems are exercised -/

/-- A server tagged `a`, without TTL. -/
def server_a : redis_server_t :=
  { tag := "a", location := "127.0.0.1:6379", timeout := 500, ttl := 0 }

/-- A server tagged `b`, without TTL. -/
def server_b : redis_server_t :=
  { tag := "b", location := "127.0.0.1:6380", timeout := 500, ttl := 0 }

/-- An environment at time `t` in which every link is healthy and writable, every
connection attempt succeeds, and the next object allocated has serial `k`. -/
def env_ok (t : Int) (k : Nat) : Env :=
  { now := t, err := fun _ => 0, poll_ret := fun _ => 1, poll_revents := fun _ => POLLOUT
    connect_err := fun _ => 0, alloc := k }

/-- An environment like `env_ok` in which every link has been hung up. -/
def env_hup (t : Int) (k : Nat) : Env :=
  { now := t, err := fun _ => 0, poll_ret := fun _ => 1
    poll_revents := fun _ => POLLOUT ||| POLLHUP
    connect_err := fun _ => 0, alloc := k }

/-- The context the first acquire of the examples creates: serial 1, server `a`,
generation 7, created at time 0. -/
def ctx1 : redis_context_t := new_redis_context 1 server_a 7 0

/-- Steps after the acquire that returned `ctx1`: an acquire that creates a
second context (serial 2), the release of that second context, and an acquire
that reuses it. -/
def ops_busy : List pool_op :=
  [ pool_op.acquire (env_ok 1 2) (some "a") 7 1
  , pool_op.release (new_redis_context 2 server_a 7 1)
  , pool_op.acquire (env_ok 2 3) (some "a") 7 2 ]

/-- A second server tagged `a`. -/
def server_a2 : redis_server_t :=
  { tag := "a", location := "/var/run/redis.sock", timeout := 500, ttl := 0 }

/-- A shared configuration with capacity 5, one server and one pool per tag, for
the tags `a` and `b`, registries in the same order, pools new. -/
def config_ab : vcl_priv_t :=
  { servers := [server_a, server_b], shared_contexts := 1, max_contexts := 5
    pools := [new_redis_context_pool "a", new_redis_context_pool "b"] }

/-- The context with serial 2 created on `server_b` at time 1. -/
def ctx2 : redis_context_t := new_redis_context 2 server_b 7 1

/-- The context with serial 3 created on `server_a` at time 3. -/
def ctx3 : redis_context_t := new_redis_context 3 server_a 7 3

/-- Wildcard run, step 1: `get_context` with the `NULL` tag on `config_ab`. -/
def wild1 : call_result := get_shared_context (env_ok 0 1) config_ab new_thread_state 7

/-- Wildcard run, step 2: the configuration after the release of `ctx1`. -/
def wild2 : vcl_priv_t := (free_shared_context wild1.config ctx1).getD wild1.config

/-- Wildcard run, step 3: `get_context` with the `NULL` tag. -/
def wild3 : call_result := get_shared_context (env_ok 1 2) wild2 new_thread_state 7

/-- Wildcard run, step 4: `get_context` with the `NULL` tag. -/
def wild4 : call_result := get_shared_context (env_ok 2 3) wild3.config new_thread_state 7

/-- Wildcard run, step 5: `get_context` with the `NULL` tag. -/
def wild5 : call_result := get_shared_context (env_ok 3 3) wild4.config new_thread_state 7

/-- Wildcard run, step 6: the configuration after the release of `ctx3`, the
context step 5 returned. -/
def wild6 : vcl_priv_t := (free_shared_context wild5.config ctx3).getD wild5.config

/-- Wildcard run, step 7: the configuration after the release of `ctx1`, the
context step 4 returned. -/
def wild7 : vcl_priv_t := (free_shared_context wild6 ctx1).getD wild6

/-- Wildcard run, step 8: `get_context` with the tag `a`, after the generation
has moved from 7 to 8. -/
def wild8 : call_result :=
  get_shared_context (env_ok 4 4) wild7 { new_thread_state with tag := some "a" } 8

/-- A context of server `a` created under generation 6 (serial 5, time 0). -/
def ctx_old : redis_context_t := new_redis_context 5 server_a 6 0

/-- A pool tagged `a` with two free contexts: `ctx_old` (generation 6) at the
head, then `ctx1` (generation 7). -/
def pool_two_free : redis_context_pool_t :=
  { tag := "a", ncontexts := 2, free_contexts := [ctx_old, ctx1], busy_contexts := [] }

/-- A private cache holding `ctx_old` only, for a request with tag `a`. -/
def state_old : thread_state_t :=
  { ncontexts := 1, contexts := [ctx_old], tag := some "a" }

/-- A private configuration with capacity 5 and the server `server_a`. -/
def config_private : vcl_priv_t :=
  { servers := [server_a], shared_contexts := 0, max_contexts := 5, pools := [] }

/-- A server tagged `a` whose connections may live 10 seconds. -/
def server_ttl : redis_server_t :=
  { tag := "a", location := "127.0.0.1:6379", timeout := 500, ttl := 10 }

/-- A context of `server_ttl` created at time 0 under generation 7. -/
def ctx_ttl : redis_context_t := new_redis_context 1 server_ttl 7 0

/-- A pool tagged `a` whose only context, `ctx_ttl`, is busy. -/
def pool_held : redis_context_pool_t :=
  { tag := "a", ncontexts := 1, free_contexts := [], busy_contexts := [ctx_ttl] }

/-- The pool `pool_held` after the release of `ctx_ttl`. -/
def pool_released : redis_context_pool_t :=
  { tag := "a", ncontexts := 1, free_contexts := [ctx_ttl], busy_contexts := [] }

/-- A private cache holding `ctx1` (server `a`), for a request with tag `z`. -/
def state_z : thread_state_t :=
  { ncontexts := 1, contexts := [ctx1], tag := some "z" }

/-- The configuration `config_ab` in private mode. -/
def config_ab_private : vcl_priv_t := { config_ab with shared_contexts := 0 }

/-- A private cache with capacity 1 holding `ctx1`, for a request with tag `b`. -/
def state_full : thread_state_t :=
  { ncontexts := 1, contexts := [ctx1], tag := some "b" }

/-- The configuration `config_ab_private` with capacity 1. -/
def config_ab_one : vcl_priv_t := { config_ab_private with max_contexts := 1 }

/-- An environment like `env_ok` in which the link of the context with serial `bad`
is in error. -/
def env_err_on (t : Int) (k bad : Nat) : Env :=
  { now := t, err := fun c => if c.id = bad then 1 else 0, poll_ret := fun _ => 1
    poll_revents := fun _ => POLLOUT, connect_err := fun _ => 0, alloc := k }

/-- A pool tagged `a` with three free contexts, `ctx_old`, `ctx1` and `ctx3`, and
one busy context, of serial 9. -/
def pool_three_free : redis_context_pool_t :=
  { tag := "a", ncontexts := 4, free_contexts := [ctx_old, ctx1, ctx3]
    busy_contexts := [new_redis_context 9 server_a 7 2] }

/-- The thread state as the caller hands it over: `state->tag` is set to the tag
of the request before `get_context` is called. -/
def with_tag (state : thread_state_t) (tag : Option String) : thread_state_t :=
  { state with tag := tag }

/-- Eviction scenario, first call: acquire for tag `x` on an empty private cache. -/
def evict_run1 (e1 : Env) (config : vcl_priv_t) (version : Nat) (x : String) : call_result :=
  get_private_context e1 config (with_tag new_thread_state (some x)) version

/-- Eviction scenario, second call: acquire for tag `y` after `evict_run1`. -/
def evict_run2 (e1 e2 : Env) (config : vcl_priv_t) (version : Nat) (x y : String) :
    call_result :=
  get_private_context e2 (evict_run1 e1 config version x).config
    (with_tag (evict_run1 e1 config version x).state (some y)) version

/-- Eviction scenario, third call: acquire for tag `x` after `evict_run2`. -/
def evict_run3 (e1 e2 e3 : Env) (config : vcl_priv_t) (version : Nat) (x y : String) :
    call_result :=
  get_private_context e3 (evict_run2 e1 e2 config version x y).config
    (with_tag (evict_run2 e1 e2 config version x y).state (some x)) version

/-- Wildcard run on a private cache, call 1: acquire for tag `a` on an empty cache,
capacity 5, servers `[server_a, server_b]`. -/
def uniq1 : call_result :=
  get_private_context (env_ok 0 1) config_ab_private (with_tag new_thread_state (some "a")) 7

/-- Wildcard run on a private cache, call 2: acquire for tag `b`. -/
def uniq2 : call_result :=
  get_private_context (env_ok 1 2) uniq1.config (with_tag uniq1.state (some "b")) 7

/-- Wildcard run on a private cache, call 3: acquire for tag `a`, all links healthy. -/
def uniq3 : call_result :=
  get_private_context (env_ok 2 3) uniq2.config (with_tag uniq2.state (some "a")) 7

/-- Wildcard run on a private cache, call 4: acquire with the `NULL` tag, at a moment
when the link of the context with serial 2 is in error. -/
def uniq4 : call_result :=
  get_private_context (env_err_on 3 3 2) uniq3.config (with_tag uniq3.state none) 7

/-- One private acquire of a run: the environment at the call, the tag requested
and the generation. -/
structure private_call where
  env : Env
  tag : Option String
  version : Nat

/-- A worker along a run of private acquires: the configuration, the thread state,
and, as a record kept beside the program, the number of acquires made so far
and for each context the rank of the acquire that last returned it (0 when
none did). -/
structure private_sys where
  config : vcl_priv_t
  state : thread_state_t
  calls : Nat
  last_returned : redis_context_t → Nat

/-- The worker before its first acquire: empty cache, nothing returned yet. -/
def private_init (config : vcl_priv_t) : private_sys :=
  { config := config, state := new_thread_state, calls := 0, last_returned := fun _ => 0 }

/-- One private acquire of a run; `none` when an assertion fails (the process
aborts). -/
def private_step (s : private_sys) (call : private_call) : Option private_sys :=
  match (get_private_context call.env s.config (with_tag s.state call.tag)
      call.version).outcome with
  | Outcome.returned result =>
    some
      { config := (get_private_context call.env s.config (with_tag s.state call.tag)
          call.version).config
        state := (get_private_context call.env s.config (with_tag s.state call.tag)
          call.version).state
        calls := s.calls + 1
        last_returned := fun c => if result = some c then s.calls + 1 else s.last_returned c }
  | Outcome.waiting => none
  | Outcome.abort => none

/-- The states after each acquire of a run, up to the first abort. -/
def private_trace : List private_call → private_sys → List private_sys
  | [], _ => []
  | call :: calls, s =>
    match private_step s call with
    | none => []
    | some s1 => s1 :: private_trace calls s1

/-- Along the run, every acquire allocates a serial that no cached context
carries at that moment. -/
def private_fresh : List private_call → private_sys → Bool
  | [], _ => true
  | call :: calls, s =>
    decide (∀ x ∈ s.state.contexts, x.id ≠ call.env.alloc) &&
    (match private_step s call with
      | none => true
      | some s1 => private_fresh calls s1)

/-- The cache list is ordered by the rank of the acquire that last returned each
context, oldest first, and no rank exceeds the number of acquires made. -/
def lru_ordered (s : private_sys) : Prop :=
  s.state.contexts.Pairwise (fun a b => s.last_returned a < s.last_returned b) ∧
  ∀ c ∈ s.state.contexts, s.last_returned c ≤ s.calls

/-- The cached contexts other than the reuse candidate of an acquire for `tag`, in
cache order: the list the eviction step works on. -/
def cache_without_candidate (state : thread_state_t) (tag : Option String) :
    List redis_context_t :=
  state.contexts.filter (fun c =>
    decide ((tailq_select (fun icontext => tag_matches tag icontext.server.tag)
      state.contexts).1 ≠ some c))

/-- A server tagged `c`, without TTL. -/
def server_c : redis_server_t :=
  { tag := "c", location := "127.0.0.1:6381", timeout := 500, ttl := 0 }

/-- A private configuration with capacity 2 and servers for the tags `a`, `b`, `c`. -/
def config_abc_two : vcl_priv_t :=
  { servers := [server_a, server_b, server_c], shared_contexts := 0, max_contexts := 2
    pools := [] }

/-- A run of four private acquires, all links healthy: for `a`, for `b`, for `a`
again (a reuse) and for `c` (which needs a slot). -/
def lru_calls : List private_call :=
  [ { env := env_ok 0 1, tag := some "a", version := 7 }
  , { env := env_ok 1 2, tag := some "b", version := 7 }
  , { env := env_ok 2 3, tag := some "a", version := 7 }
  , { env := env_ok 3 4, tag := some "c", version := 7 } ]

/-! # Properties -/

/-! ## Arithmetic and queue lemmas -/

theorem length_insert_tail_erase (busy : List redis_context_t) (c : redis_context_t) :
    ((busy ++ [c]).erase c).length = busy.length := by
  rw [List.length_erase_of_mem (by simp)]
  simp

theorem uint_dec_pos (n : Nat) (h1 : 0 < n) (h2 : n < 4294967296) : uint_dec n = n - 1 := by
  unfold uint_dec; omega

theorem uint_inc_lt (n : Nat) (h : n + 1 < 4294967296) : uint_inc n = n + 1 := by
  unfold uint_inc; omega

theorem free_scan_accounting (env : Env) (version : Nat) (now : Int) :
    ∀ (free : List redis_context_t) (pool : redis_context_pool_t),
      pool.ncontexts = free.length + pool.busy_contexts.length →
      pool.ncontexts < 4294967296 →
      pool_accounting (free_scan env version now free pool).pool ∧
      (free_scan env version now free pool).pool.ncontexts ≤ pool.ncontexts ∧
      ((free_scan env version now free pool).result = none →
        (free_scan env version now free pool).pool.free_contexts = []) := by
  intro free
  induction free with
  | nil =>
    intro pool h _
    simp [free_scan, pool_accounting] at *
    exact h
  | cons c rest ih =>
    intro pool h hr
    simp only [free_scan]
    split
    · simp [pool_accounting] at *
      omega
    · have hlen := length_insert_tail_erase pool.busy_contexts c
      have hdec := uint_dec_pos pool.ncontexts (by simp at h; omega) hr
      have := ih { pool with free_contexts := rest
                             busy_contexts := (pool.busy_contexts ++ [c]).erase c
                             ncontexts := uint_dec pool.ncontexts }
        (by simp only [hlen, hdec]; simp at h; omega) (by simp only [hdec]; omega)
      exact ⟨this.1, le_trans this.2.1 (by simp only [hdec]; omega), this.2.2⟩

theorem shared_create_inv (env : Env) (pool : redis_context_pool_t)
    (servers : List redis_server_t) (server : redis_server_t) (version : Nat) (now : Int)
    (events : List Event) (max_contexts : Nat) (hmax : max_contexts < 4294967296)
    (hacc : pool_accounting pool) (hlt : pool.ncontexts < max_contexts) :
    pool_accounting (shared_create env pool servers server version now events).pool ∧
    (shared_create env pool servers server version now events).pool.ncontexts ≤ max_contexts := by
  unfold shared_create
  split
  · have := uint_inc_lt pool.ncontexts (by omega)
    simp only [pool_accounting, this, List.length_append, List.length_singleton] at *
    omega
  · exact ⟨hacc, by dsimp only; omega⟩

theorem shared_new_inv (max_contexts : Nat) (env : Env) (tag : Option String)
    (version : Nat) (now : Int) (servers : List redis_server_t) (pool : redis_context_pool_t)
    (events : List Event) (hmax : max_contexts < 4294967296) (hacc : pool_accounting pool)
    (hr : pool.ncontexts < 4294967296) (hfree : pool.free_contexts = []) :
    pool_accounting (shared_new max_contexts env tag version now servers pool events).pool ∧
    (shared_new max_contexts env tag version now servers pool events).pool.ncontexts
      < 4294967296 ∧
    (pool.ncontexts ≤ max_contexts →
      (shared_new max_contexts env tag version now servers pool events).pool.ncontexts
        ≤ max_contexts) := by
  unfold shared_new
  split
  · exact ⟨hacc, hr, fun h => h⟩
  · split
    · rw [hfree]
      exact ⟨hacc, hr, fun h => h⟩
    · have := shared_create_inv env pool ‹_› ‹_› version now events max_contexts hmax hacc
        (by omega)
      exact ⟨this.1, by omega, fun _ => this.2⟩

theorem shared_retry_inv (max_contexts : Nat) (env : Env) (tag : Option String)
    (version : Nat) (now : Int) (servers : List redis_server_t) (pool : redis_context_pool_t)
    (hmax : max_contexts < 4294967296) (hacc : pool_accounting pool)
    (hr : pool.ncontexts < 4294967296) :
    pool_accounting (shared_retry max_contexts env tag version now servers pool).pool ∧
    (shared_retry max_contexts env tag version now servers pool).pool.ncontexts < 4294967296 ∧
    (pool.ncontexts ≤ max_contexts →
      (shared_retry max_contexts env tag version now servers pool).pool.ncontexts
        ≤ max_contexts) := by
  obtain ⟨h1, h2, h3⟩ := free_scan_accounting env version now pool.free_contexts pool hacc hr
  unfold shared_retry
  dsimp only
  split
  · exact ⟨h1, by dsimp only; omega, by dsimp only; omega⟩
  · rename_i hnone
    have := shared_new_inv max_contexts env tag version now servers
      (free_scan env version now pool.free_contexts pool).pool
      (free_scan env version now pool.free_contexts pool).events hmax h1 (by omega) (h3 hnone)
    exact ⟨this.1, this.2.1, fun h => this.2.2 (by omega)⟩

theorem tailq_take_none {α : Type} (p : α → Bool) :
    ∀ q : List α, tailq_take p q = none ↔ ∀ y ∈ q, p y = false := by
  intro q
  induction q with
  | nil => simp [tailq_take]
  | cons x xs ih =>
    by_cases hx : p x = true
    · simp [tailq_take, hx]
    · simp only [tailq_take, hx]
      cases h : tailq_take p xs with
      | none =>
        have := ih.mp h
        simp_all
      | some yr =>
        have : ¬ ∀ y ∈ xs, p y = false := fun hall => by
          rw [ih.mpr hall] at h; cases h
        simp_all

theorem tailq_take_some {α : Type} (p : α → Bool) :
    ∀ (q : List α) (x : α) (rest : List α), tailq_take p q = some (x, rest) →
      ∃ a b, q = a ++ x :: b ∧ (∀ y ∈ a, p y = false) ∧ p x = true ∧ rest = a ++ b := by
  intro q
  induction q with
  | nil => intro x rest h; simp [tailq_take] at h
  | cons z zs ih =>
    intro x rest h
    by_cases hz : p z = true
    · simp only [tailq_take, hz, if_true, Option.some.injEq, Prod.mk.injEq] at h
      obtain ⟨rfl, rfl⟩ := h
      exact ⟨[], zs, rfl, by simp, hz, rfl⟩
    · simp only [tailq_take, hz] at h
      cases h1 : tailq_take p zs with
      | none => simp [h1] at h
      | some yr =>
        obtain ⟨y, r⟩ := yr
        obtain ⟨a, b, rfl, ha, hy, rfl⟩ := ih y r h1
        simp only [h1, Option.some.injEq, Prod.mk.injEq] at h
        obtain ⟨rfl, rfl⟩ := h
        refine ⟨z :: a, b, rfl, ?_, hy, rfl⟩
        intro w hw
        rcases List.mem_cons.mp hw with rfl | hw
        · simpa using hz
        · exact ha w hw

theorem tailq_take_split {α : Type} (p : α → Bool) (a b : List α) (x : α)
    (ha : ∀ y ∈ a, p y = false) (hx : p x = true) :
    tailq_take p (a ++ x :: b) = some (x, a ++ b) := by
  induction a with
  | nil => simp [tailq_take, hx]
  | cons z zs ih =>
    have hz : p z = false := ha z (by simp)
    have := ih (fun y hy => ha y (by simp [hy]))
    simp [tailq_take, hz, this]

/-! ## C1: capacity bound -/

theorem pool_release_busy (pool : redis_context_pool_t) (context : redis_context_t)
    (hfree : context ∉ pool.free_contexts) :
    pool_release pool context =
      { pool with busy_contexts := pool.busy_contexts.erase context
                  free_contexts := pool.free_contexts ++ [context] } := by
  unfold pool_release
  rw [List.erase_of_not_mem hfree]

theorem pool_release_inv (pool : redis_context_pool_t) (context : redis_context_t)
    (hmem : context ∈ pool.busy_contexts) (hfree : context ∉ pool.free_contexts)
    (hacc : pool_accounting pool) :
    pool_accounting (pool_release pool context) ∧
      (pool_release pool context).ncontexts = pool.ncontexts := by
  rw [pool_release_busy pool context hfree]
  have hpos : 0 < pool.busy_contexts.length := List.length_pos_of_mem hmem
  refine ⟨?_, rfl⟩
  simp only [pool_accounting, List.length_append, List.length_singleton,
    List.length_erase_of_mem hmem] at hacc ⊢
  omega

/-- C1, evaluated on the run of C4 continued. Capacity is 5 and every pool of
the configuration has had a live count of at most 5 from the start. After the
fourth acquire with the `NULL` tag, pool `a` counts 1 and pool `b` counts 2,
with `ctx3` (server `a`) busy in pool `b`. `free_context(ctx3)` selects pool
`a` and appends `ctx3` to its free list without touching its count;
`free_context(ctx1)` then leaves pool `a` with a count of 1 and two free
contexts. An acquire for tag `a` under the next generation discards both, with
one decrement each on a count of 1: the `unsigned` live count of pool `a` is
4294967295, above the capacity, and the call waits. The last three calls, as
steps on pool `a` alone, give the live counts 1, 1 and 4294967295. -/
theorem capacity_bound_fails_after_wildcard_release :
    config_ab.max_contexts = 5 ∧
    (∀ pool ∈ config_ab.pools, pool.ncontexts ≤ 5) ∧
    (∀ pool ∈ wild5.config.pools, pool.ncontexts ≤ 5) ∧
    wild5.outcome = Outcome.returned (some ctx3) ∧
    free_shared_context wild5.config ctx3 = some wild6 ∧
    (∀ pool ∈ wild6.pools, pool.ncontexts ≤ 5) ∧
    free_shared_context wild6 ctx1 = some wild7 ∧
    wild7.pools =
      [ { tag := "b", ncontexts := 2, free_contexts := [], busy_contexts := [ctx2] }
      , { tag := "a", ncontexts := 1, free_contexts := [ctx3, ctx1], busy_contexts := [] } ] ∧
    wild8.outcome = Outcome.waiting ∧
    wild8.events = [Event.free_redis_context ctx3, Event.free_redis_context ctx1] ∧
    wild8.config.pools =
      [ { tag := "b", ncontexts := 2, free_contexts := [], busy_contexts := [ctx2] }
      , { tag := "a", ncontexts := 4294967295, free_contexts := [], busy_contexts := [] } ] ∧
    ¬ (∀ pool ∈ wild8.config.pools, pool.ncontexts ≤ wild8.config.max_contexts) ∧
    (pool_trace 5
        [ pool_op.release ctx3, pool_op.release ctx1
        , pool_op.acquire (env_ok 4 4) (some "a") 8 4 ]
        { pool := { tag := "a", ncontexts := 1, free_contexts := [], busy_contexts := [ctx1] }
          servers := wild7.servers }).map (fun s => s.pool.ncontexts)
      = [1, 1, 4294967295] := by
  decide

/-! ## C3: accounting invariant -/

theorem tailq_select_some {α : Type} (p : α → Bool) (q : List α) (x : α) (q1 : List α)
    (h : tailq_select p q = (some x, q1)) :
    ∃ a b, q = a ++ x :: b ∧ (∀ y ∈ a, p y = false) ∧ p x = true ∧ q1 = a ++ b ++ [x] := by
  unfold tailq_select at h
  cases h1 : tailq_take p q with
  | none => simp [h1] at h
  | some yr =>
    obtain ⟨y, r⟩ := yr
    obtain ⟨a, b, hq, ha, hy, rfl⟩ := tailq_take_some p q y r h1
    simp only [h1, Prod.mk.injEq, Option.some.injEq] at h
    obtain ⟨rfl, rfl⟩ := h
    exact ⟨a, b, hq, ha, hy, rfl⟩

theorem tailq_select_none {α : Type} (p : α → Bool) (q : List α) (q1 : List α)
    (h : tailq_select p q = (none, q1)) : q1 = q ∧ ∀ y ∈ q, p y = false := by
  unfold tailq_select at h
  cases h1 : tailq_take p q with
  | none =>
    simp only [h1, Prod.mk.injEq, true_and] at h
    exact ⟨h.symm, (tailq_take_none p q).mp h1⟩
  | some yr => simp [h1] at h

theorem get_shared_context_pools_inv (env : Env) (config : vcl_priv_t) (state : thread_state_t)
    (version : Nat) (hmax : config.max_contexts < 4294967296)
    (hinv : ∀ pool ∈ config.pools, pool.ncontexts < 4294967296 ∧ pool_accounting pool) :
    ∀ pool ∈ (get_shared_context env config state version).config.pools,
      pool.ncontexts < 4294967296 ∧ pool_accounting pool := by
  unfold get_shared_context
  dsimp only
  split
  · rename_i pool0 pools hsel
    obtain ⟨a, b, hq, _, _, rfl⟩ := tailq_select_some _ _ _ _ hsel
    have h0 := hinv pool0 (by rw [hq]; simp)
    have hr := shared_retry_inv config.max_contexts env state.tag version env.now
      config.servers pool0 hmax h0.2 h0.1
    intro pool hp
    simp only [List.dropLast_concat, List.mem_append, List.mem_singleton] at hp
    rcases hp with (hp | hp) | rfl
    · exact hinv pool (by rw [hq]; simp [hp])
    · exact hinv pool (by rw [hq]; simp [hp])
    · exact ⟨hr.2.1, hr.1⟩
  · rename_i pools hsel
    obtain ⟨rfl, _⟩ := tailq_select_none _ _ _ hsel
    exact hinv

/-- C3, evaluated on the run of C4 continued. The accounting invariant
`ncontexts = |free| + |busy|` holds of every pool in every configuration of the
run up to the fourth acquire, which returns `ctx3`. The release of `ctx3`, a
connection returned by acquire, selects pool `a` by the tag of the server of
`ctx3` while `ctx3` is in the busy list of pool `b`: it returns normally,
unlinks `ctx3` from pool `b` and appends it to the free list of pool `a`, and
neither count is touched. Afterwards the invariant fails in both pools: pool
`b` counts 2 and holds one context, pool `a` counts 1 and holds two. -/
theorem accounting_fails_after_wildcard_release :
    (∀ config ∈ [config_ab, wild1.config, wild2, wild3.config, wild4.config, wild5.config],
      ∀ pool ∈ config.pools, pool_accounting pool) ∧
    wild5.outcome = Outcome.returned (some ctx3) ∧
    free_shared_context wild5.config ctx3 = some wild6 ∧
    wild6.pools =
      [ { tag := "b", ncontexts := 2, free_contexts := [], busy_contexts := [ctx2] }
      , { tag := "a", ncontexts := 1, free_contexts := [ctx3], busy_contexts := [ctx1] } ] ∧
    (∀ pool ∈ wild6.pools, ¬ pool_accounting pool) := by
  decide

/-! ## Closed forms of the scan and of the shared acquire -/

theorem insert_tail_erase_self (busy : List redis_context_t) (c : redis_context_t)
    (h : c ∉ busy) : (busy ++ [c]).erase c = busy := by
  rw [List.erase_append_right _ h]
  simp

theorem free_scan_invalid (env : Env) (version : Nat) (now : Int) (c : redis_context_t)
    (rest : List redis_context_t) (pool : redis_context_pool_t)
    (hv : ¬ is_valid_context env c version now = true) (hc : c ∉ pool.busy_contexts) :
    free_scan env version now (c :: rest) pool =
      { free_scan env version now rest
          { pool with free_contexts := rest, ncontexts := uint_dec pool.ncontexts } with
        events := Event.free_redis_context c ::
          (free_scan env version now rest
            { pool with free_contexts := rest
                        ncontexts := uint_dec pool.ncontexts }).events } := by
  rw [free_scan]
  simp only [hv]
  rw [insert_tail_erase_self pool.busy_contexts c hc]
  rfl

/-- Closed form of the free-list scan: it destroys a prefix `pre` of invalid
contexts, decrementing the live count once for each, and stops at the first
valid context, which it moves to the tail of the busy list; or it empties the
free list and leaves `result` null. -/
theorem free_scan_spec (env : Env) (version : Nat) (now : Int) :
    ∀ (free : List redis_context_t) (pool : redis_context_pool_t),
      (∀ x ∈ free, x ∉ pool.busy_contexts) →
      ∃ pre post, free = pre ++ post ∧
        (∀ x ∈ pre, is_valid_context env x version now = false) ∧
        (free_scan env version now free pool).events = pre.map Event.free_redis_context ∧
        (free_scan env version now free pool).pool.tag = pool.tag ∧
        (free_scan env version now free pool).pool.ncontexts
          = uint_dec^[pre.length] pool.ncontexts ∧
        ((post = [] ∧ (free_scan env version now free pool).result = none ∧
            (free_scan env version now free pool).pool.free_contexts = [] ∧
            (free_scan env version now free pool).pool.busy_contexts = pool.busy_contexts) ∨
         (∃ c rest, post = c :: rest ∧ is_valid_context env c version now = true ∧
            (free_scan env version now free pool).result = some c ∧
            (free_scan env version now free pool).pool.free_contexts = rest ∧
            (free_scan env version now free pool).pool.busy_contexts
              = pool.busy_contexts ++ [c])) := by
  intro free
  induction free with
  | nil =>
    intro pool _
    exact ⟨[], [], rfl, by simp, rfl, rfl, rfl, Or.inl ⟨rfl, rfl, rfl, rfl⟩⟩
  | cons c rest ih =>
    intro pool hdis
    by_cases hv : is_valid_context env c version now = true
    · refine ⟨[], c :: rest, rfl, by simp, ?_, ?_, ?_, Or.inr ⟨c, rest, rfl, hv, ?_, ?_, ?_⟩⟩ <;>
        simp [free_scan, hv]
    · have hc : c ∉ pool.busy_contexts := hdis c (by simp)
      obtain ⟨pre, post, hsplit, hpre, hev, htag, hn, hcase⟩ :=
        ih { pool with free_contexts := rest, ncontexts := uint_dec pool.ncontexts }
          (fun x hx => hdis x (by simp [hx]))
      rw [free_scan_invalid env version now c rest pool hv hc]
      refine ⟨c :: pre, post, by simp [hsplit], ?_, ?_, htag, ?_, hcase⟩
      · intro x hx
        rcases List.mem_cons.mp hx with rfl | hx
        · simpa using hv
        · exact hpre x hx
      · show _ :: _ = _
        rw [hev]
        rfl
      · rw [List.length_cons, Function.iterate_succ_apply]
        exact hn

theorem pool_ext (p q : redis_context_pool_t) (h1 : p.tag = q.tag)
    (h2 : p.ncontexts = q.ncontexts) (h3 : p.free_contexts = q.free_contexts)
    (h4 : p.busy_contexts = q.busy_contexts) : p = q := by
  cases p; cases q
  simp only [redis_context_pool_t.mk.injEq]
  exact ⟨h1, h2, h3, h4⟩

/-- Closed form of the body of the shared acquire, for a pool whose free and busy
lists are disjoint: a prefix of invalid free contexts is destroyed; then either
the first valid one is returned, or the free list is empty and the block
`shared_new` runs. -/
theorem shared_retry_spec (max_contexts : Nat) (env : Env) (tag : Option String)
    (version : Nat) (now : Int) (servers : List redis_server_t) (pool : redis_context_pool_t)
    (hdis : ∀ x ∈ pool.free_contexts, x ∉ pool.busy_contexts) :
    ∃ pre post, pool.free_contexts = pre ++ post ∧
      (∀ x ∈ pre, is_valid_context env x version now = false) ∧
      ((∃ c rest, post = c :: rest ∧ is_valid_context env c version now = true ∧
          shared_retry max_contexts env tag version now servers pool =
            { outcome := Outcome.returned (some c)
              pool := { pool with free_contexts := rest
                                  busy_contexts := pool.busy_contexts ++ [c]
                                  ncontexts := uint_dec^[pre.length] pool.ncontexts }
              servers := servers
              events := pre.map Event.free_redis_context }) ∨
       (post = [] ∧
          shared_retry max_contexts env tag version now servers pool =
            shared_new max_contexts env tag version now servers
              { pool with free_contexts := []
                          ncontexts := uint_dec^[pre.length] pool.ncontexts }
              (pre.map Event.free_redis_context))) := by
  obtain ⟨pre, post, hsplit, hpre, hev, htag, hn, hcase⟩ :=
    free_scan_spec env version now pool.free_contexts pool hdis
  refine ⟨pre, post, hsplit, hpre, ?_⟩
  rcases hcase with ⟨hpost, hres, hfree, hbusy⟩ | ⟨c, rest, hpost, hv, hres, hfree, hbusy⟩
  · right
    refine ⟨hpost, ?_⟩
    have hp : (free_scan env version now pool.free_contexts pool).pool =
        { pool with free_contexts := []
                    ncontexts := uint_dec^[pre.length] pool.ncontexts } :=
      pool_ext _ _ htag hn hfree hbusy
    unfold shared_retry
    simp only [hres, hp, hev]
  · left
    refine ⟨c, rest, hpost, hv, ?_⟩
    have hp : (free_scan env version now pool.free_contexts pool).pool =
        { pool with free_contexts := rest
                    busy_contexts := pool.busy_contexts ++ [c]
                    ncontexts := uint_dec^[pre.length] pool.ncontexts } :=
      pool_ext _ _ htag hn hfree hbusy
    unfold shared_retry
    simp only [hres, hp, hev]

/-- The block `shared_new` on a pool whose free list is empty: the eviction
branch cannot run, so the pool is left as it is or gains one new busy context. -/
theorem shared_new_spec (max_contexts : Nat) (env : Env) (tag : Option String)
    (version : Nat) (now : Int) (servers : List redis_server_t) (pool : redis_context_pool_t)
    (events : List Event) (hfree : pool.free_contexts = []) :
    ((unsafe_get_server servers tag).1 = none ∧
      shared_new max_contexts env tag version now servers pool events =
        { outcome := Outcome.returned none, pool := pool
          servers := (unsafe_get_server servers tag).2
          events := events ++ [Event.log_no_server tag] }) ∨
    (∃ server, (unsafe_get_server servers tag).1 = some server ∧
      ((max_contexts ≤ pool.ncontexts ∧
        shared_new max_contexts env tag version now servers pool events =
          { outcome := Outcome.waiting, pool := pool
            servers := (unsafe_get_server servers tag).2, events := events }) ∨
       (pool.ncontexts < max_contexts ∧ new_rcontext env server = false ∧
        shared_new max_contexts env tag version now servers pool events =
          { outcome := Outcome.returned none, pool := pool
            servers := (unsafe_get_server servers tag).2
            events := events ++ [Event.new_rcontext server] }) ∨
       (pool.ncontexts < max_contexts ∧ new_rcontext env server = true ∧
        shared_new max_contexts env tag version now servers pool events =
          { outcome := Outcome.returned (some (new_redis_context env.alloc server version now))
            pool := { pool with
              busy_contexts := pool.busy_contexts ++
                [new_redis_context env.alloc server version now]
              ncontexts := uint_inc pool.ncontexts }
            servers := (unsafe_get_server servers tag).2
            events := events ++ [Event.new_rcontext server] }))) := by
  unfold shared_new
  rcases hsel : unsafe_get_server servers tag with ⟨_ | server, servers1⟩
  · left
    exact ⟨rfl, rfl⟩
  · right
    refine ⟨server, rfl, ?_⟩
    dsimp only
    by_cases hcap : max_contexts ≤ pool.ncontexts
    · left
      refine ⟨hcap, ?_⟩
      rw [if_pos hcap, hfree]
    · right
      have hlt : pool.ncontexts < max_contexts := by omega
      rw [if_neg hcap]
      unfold shared_create
      by_cases hconn : new_rcontext env server = true
      · right
        exact ⟨hlt, hconn, by rw [if_pos hconn]⟩
      · left
        exact ⟨hlt, by simpa using hconn, by rw [if_neg hconn]⟩

/-! ## C2: an acquired context is busy -/

theorem shared_retry_lists (max_contexts : Nat) (env : Env) (tag : Option String)
    (version : Nat) (now : Int) (servers : List redis_server_t) (pool : redis_context_pool_t)
    (hnd : pool_nodup pool) (hfresh : pool_fresh env pool) :
    pool_nodup (shared_retry max_contexts env tag version now servers pool).pool ∧
    (∀ x ∈ pool.busy_contexts,
      x ∈ (shared_retry max_contexts env tag version now servers pool).pool.busy_contexts) ∧
    (∀ c, (shared_retry max_contexts env tag version now servers pool).outcome
        = Outcome.returned (some c) →
      c ∈ (shared_retry max_contexts env tag version now servers pool).pool.busy_contexts ∧
      c ∉ pool.busy_contexts) := by
  have hdis : ∀ x ∈ pool.free_contexts, x ∉ pool.busy_contexts := by
    intro x hx hb
    exact (List.disjoint_of_nodup_append hnd) hx hb
  obtain ⟨pre, post, hsplit, hpre, hcase⟩ :=
    shared_retry_spec max_contexts env tag version now servers pool hdis
  unfold pool_nodup at hnd ⊢
  unfold pool_fresh at hfresh
  rw [hsplit] at hnd hdis
  rcases hcase with ⟨c, rest, rfl, hv, heq⟩ | ⟨rfl, heq⟩
  · rw [heq]
    dsimp only
    refine ⟨?_, fun x hx => by simp [hx], ?_⟩
    · simp only [List.nodup_append, List.nodup_cons, List.mem_append, List.mem_cons,
        List.Disjoint, List.nodup_nil, List.mem_singleton, List.not_mem_nil] at hnd ⊢
      aesop
    · intro c1 hc1
      simp only [Outcome.returned.injEq, Option.some.injEq] at hc1
      subst hc1
      exact ⟨by simp, hdis c (by simp)⟩
  · rw [heq]
    have hb : pool.busy_contexts.Nodup := (List.nodup_append.mp hnd).2.1
    rcases shared_new_spec max_contexts env tag version now servers
      { pool with free_contexts := []
                  ncontexts := uint_dec^[pre.length] pool.ncontexts }
      (pre.map Event.free_redis_context) rfl with
      ⟨_, h⟩ | ⟨server, _, ⟨_, h⟩ | ⟨_, _, h⟩ | ⟨_, _, h⟩⟩
    · rw [h]
      exact ⟨by simpa using hb, fun x hx => hx, fun c hc => by simp at hc⟩
    · rw [h]
      exact ⟨by simpa using hb, fun x hx => hx, fun c hc => by simp at hc⟩
    · rw [h]
      exact ⟨by simpa using hb, fun x hx => hx, fun c hc => by simp at hc⟩
    · rw [h]
      dsimp only
      have hnew : new_redis_context env.alloc server version now ∉ pool.busy_contexts := by
        intro hmem
        exact hfresh (new_redis_context env.alloc server version now)
          (List.mem_append_right _ hmem) rfl
      refine ⟨?_, fun x hx => by simp [hx], ?_⟩
      · simp only [List.nil_append]
        refine List.Nodup.append hb (by simp) ?_
        intro a ha ha1
        rw [List.mem_singleton] at ha1
        exact hnew (ha1 ▸ ha)
      · intro c hc
        simp only [Outcome.returned.injEq, Option.some.injEq] at hc
        subst hc
        exact ⟨by simp, hnew⟩

theorem pool_release_lists (pool : redis_context_pool_t) (x c : redis_context_t)
    (hne : x ≠ c) (hnd : pool_nodup pool) (hc : c ∈ pool.busy_contexts) :
    pool_nodup (pool_release pool x) ∧ c ∈ (pool_release pool x).busy_contexts := by
  unfold pool_nodup at hnd ⊢
  unfold pool_release
  dsimp only
  refine ⟨?_, (List.mem_erase_of_ne (Ne.symm hne)).mpr hc⟩
  obtain ⟨hf, hb, hdis⟩ := List.nodup_append.mp hnd
  rw [List.nodup_append]
  refine ⟨?_, hb.erase x, ?_⟩
  · rw [List.nodup_append]
    refine ⟨hf.erase x, List.nodup_singleton x, ?_⟩
    intro y hy hy1
    rw [List.mem_singleton] at hy1
    subst hy1
    exact ((hf.mem_erase_iff).mp hy).1 rfl
  · intro y hy hy1
    rw [List.mem_append, List.mem_singleton] at hy
    rcases hy with hy | rfl
    · exact hdis (List.mem_of_mem_erase hy) (List.mem_of_mem_erase hy1)
    · exact ((hb.mem_erase_iff).mp hy1).1 rfl

theorem busy_trace_inv (max_contexts : Nat) (c : redis_context_t) :
    ∀ (ops : List pool_op) (s : pool_sys), pool_nodup s.pool → c ∈ s.pool.busy_contexts →
      (∀ op ∈ ops, not_release c op) → ops_fresh max_contexts ops s = true →
      ∀ s1 ∈ pool_trace max_contexts ops s,
        pool_nodup s1.pool ∧ c ∈ s1.pool.busy_contexts := by
  intro ops
  induction ops with
  | nil => intro s _ _ _ _ s1 h; simp [pool_trace] at h
  | cons op ops ih =>
    intro s hnd hc hops hfr s1 h
    simp only [pool_trace, List.mem_cons] at h
    simp only [ops_fresh, Bool.and_eq_true] at hfr
    have hs2 : pool_nodup (pool_step max_contexts op s).pool ∧
        c ∈ (pool_step max_contexts op s).pool.busy_contexts := by
      cases op with
      | acquire env tag version now =>
        have := shared_retry_lists max_contexts env tag version now s.servers s.pool hnd
          (of_decide_eq_true hfr.1)
        exact ⟨this.1, this.2.1 c hc⟩
      | release x =>
        have hne : x ≠ c := hops (pool_op.release x) (by simp)
        exact pool_release_lists s.pool x c hne hnd hc
    rcases h with rfl | h
    · exact hs2
    · exact ih _ hs2.1 hs2.2 (fun op hop => hops op (by simp [hop])) hfr.2 s1 h

theorem busy_of_nodup (pool : redis_context_pool_t) (c : redis_context_t)
    (hnd : pool_nodup pool) (hc : c ∈ pool.busy_contexts) :
    c ∉ pool.free_contexts ∧ pool.busy_contexts.count c = 1 := by
  unfold pool_nodup at hnd
  refine ⟨fun hf => (List.disjoint_of_nodup_append hnd) hf hc, ?_⟩
  exact List.count_eq_one_of_mem (List.nodup_append.mp hnd).2.1 hc

theorem filter_eq_nil_of_all_false {α : Type} (p : α → Bool) (a : List α)
    (ha : ∀ y ∈ a, p y = false) : a.filter p = [] := by
  rw [List.filter_eq_nil_iff]
  intro y hy
  simp [ha y hy]

theorem tailq_select_filter {α : Type} (p : α → Bool) (q : List α) (m : α) (ms : List α)
    (h : q.filter p = m :: ms) :
    (tailq_select p q).1 = some m ∧ (tailq_select p q).2.filter p = ms ++ [m] := by
  cases ht : tailq_take p q with
  | none =>
    have := filter_eq_nil_of_all_false p q ((tailq_take_none p q).mp ht)
    rw [this] at h
    cases h
  | some xr =>
    obtain ⟨x, r⟩ := xr
    obtain ⟨a, b, rfl, ha, hx, rfl⟩ := tailq_take_some p q x r ht
    have hfa := filter_eq_nil_of_all_false p a ha
    simp only [List.filter_append, hfa, List.nil_append, List.filter_cons, hx, if_true,
      List.cons.injEq] at h
    obtain ⟨rfl, rfl⟩ := h
    simp [tailq_select, ht, List.filter_append, hfa, hx]

theorem repeat_select_filter {α : Type} (p : α → Bool) :
    ∀ (xs ys q : List α), q.filter p = xs ++ ys →
      (repeat_select (tailq_select p) xs.length q).1 = xs.map some ∧
      (repeat_select (tailq_select p) xs.length q).2.filter p = ys ++ xs := by
  intro xs
  induction xs with
  | nil => intro ys q h; simpa [repeat_select] using h
  | cons m xs ih =>
    intro ys q h
    obtain ⟨h1, h2⟩ := tailq_select_filter p q m (xs ++ ys) h
    have := ih (ys ++ [m]) (tailq_select p q).2 (by simpa using h2)
    simp only [List.length_cons, repeat_select, List.map_cons, h1]
    exact ⟨by rw [this.1], by simpa using this.2⟩

theorem round_robin_generic {α : Type} (p : α → Bool) (q : List α)
    (hk : 1 ≤ (q.filter p).length) :
    (repeat_select (tailq_select p) (q.filter p).length q).1 = (q.filter p).map some ∧
    (q.Nodup → (repeat_select (tailq_select p) (q.filter p).length q).1.Nodup) ∧
    (tailq_select p (repeat_select (tailq_select p) (q.filter p).length q).2).1
      = (tailq_select p q).1 ∧
    (tailq_select p q).1 = (q.filter p).head? := by
  obtain ⟨h1, h2⟩ := repeat_select_filter p (q.filter p) [] q (by simp)
  refine ⟨h1, ?_, ?_⟩
  · intro hnd
    rw [h1]
    exact (hnd.filter p).map (fun a b hab => by simpa using hab)
  · cases hms : q.filter p with
    | nil => rw [hms] at hk; simp at hk
    | cons m ms =>
      rw [hms] at h2
      have ha := tailq_select_filter p q m ms hms
      have hb := tailq_select_filter p _ m ms (by simpa using h2)
      exact ⟨by rw [ha.1]; exact hb.1, by rw [ha.1]; rfl⟩

/-- C5. Round-robin: on a server registry (resp. pool registry) with `k ≥ 1` entries
matching a tag (every entry matches the `NULL` tag), `k` consecutive calls of
`unsafe_get_server` (resp. `unsafe_get_pool`) for that tag, with no other
mutation in between, return exactly the `k` matching entries in their original
relative order; these are pairwise distinct when the registry holds no entry
twice; and the next call returns the same entry as the first call, namely the
first matching entry. -/
theorem round_robin (tag : Option String) :
    (∀ servers : List redis_server_t,
      1 ≤ (servers.filter (fun s => tag_matches tag s.tag)).length →
      (repeat_select (fun q => unsafe_get_server q tag)
          (servers.filter (fun s => tag_matches tag s.tag)).length servers).1
        = (servers.filter (fun s => tag_matches tag s.tag)).map some ∧
      (servers.Nodup →
        (repeat_select (fun q => unsafe_get_server q tag)
          (servers.filter (fun s => tag_matches tag s.tag)).length servers).1.Nodup) ∧
      (unsafe_get_server
          (repeat_select (fun q => unsafe_get_server q tag)
            (servers.filter (fun s => tag_matches tag s.tag)).length servers).2 tag).1
        = (unsafe_get_server servers tag).1 ∧
      (unsafe_get_server servers tag).1
        = (servers.filter (fun s => tag_matches tag s.tag)).head?) ∧
    (∀ pools : List redis_context_pool_t,
      1 ≤ (pools.filter (fun p => tag_matches tag p.tag)).length →
      (repeat_select (fun q => unsafe_get_pool q tag)
          (pools.filter (fun p => tag_matches tag p.tag)).length pools).1
        = (pools.filter (fun p => tag_matches tag p.tag)).map some ∧
      (pools.Nodup →
        (repeat_select (fun q => unsafe_get_pool q tag)
          (pools.filter (fun p => tag_matches tag p.tag)).length pools).1.Nodup) ∧
      (unsafe_get_pool
          (repeat_select (fun q => unsafe_get_pool q tag)
            (pools.filter (fun p => tag_matches tag p.tag)).length pools).2 tag).1
        = (unsafe_get_pool pools tag).1 ∧
      (unsafe_get_pool pools tag).1
        = (pools.filter (fun p => tag_matches tag p.tag)).head?) :=
  ⟨fun servers hk =>
     round_robin_generic (fun s : redis_server_t => tag_matches tag s.tag) servers hk,
   fun pools hk =>
     round_robin_generic (fun p : redis_context_pool_t => tag_matches tag p.tag) pools hk⟩

/-- Instance of C5: a registry with two servers tagged `a` around one tagged `b`;
two calls for `a` return the two in order, the registry then holds the `b`
server first, and the third call returns the first `a` server again. -/
theorem round_robin_witness :
    (repeat_select (fun q => unsafe_get_server q (some "a")) 2
        [server_a, server_b, server_a2]).1 = [some server_a, some server_a2] ∧
    (repeat_select (fun q => unsafe_get_server q (some "a")) 2
        [server_a, server_b, server_a2]).2 = [server_b, server_a, server_a2] ∧
    (unsafe_get_server
        (repeat_select (fun q => unsafe_get_server q (some "a")) 2
          [server_a, server_b, server_a2]).2 (some "a")).1 = some server_a :=
  ⟨((round_robin (some "a")).1 [server_a, server_b, server_a2] (by decide)).1,
   by decide, by decide⟩

/-! ## C4: the pool selected by release -/

/-- C4, evaluated on a run of `get_context` calls with the `NULL` tag. From a
configuration with one server and one pool for each of the tags `a` and `b`:
the first call creates `ctx1` (server `a`) in pool `a`; `ctx1` is released; the
second call creates `ctx2` (server `b`) in pool `b`; the third call reuses
`ctx1`, which rotates the pool registry and not the server registry; the
fourth call then selects pool `b` and server `a`, and returns `ctx3`, a context
of server `a` that sits in the busy list of pool `b`. The pool that
`free_shared_context` selects for `ctx3`, by the tag of its server, is pool
`a`, whose busy list does not hold `ctx3`: the release returns normally, with
`ctx3` unlinked from the busy list of pool `b` and appended to the free list
of pool `a`, next to the busy `ctx1`. -/
theorem wildcard_release_selects_other_pool :
    wild1.outcome = Outcome.returned (some ctx1) ∧
    free_shared_context wild1.config ctx1 = some wild2 ∧
    wild3.outcome = Outcome.returned (some ctx2) ∧
    wild4.outcome = Outcome.returned (some ctx1) ∧
    wild5.outcome = Outcome.returned (some ctx3) ∧
    wild5.config.pools =
      [ { tag := "a", ncontexts := 1, free_contexts := [], busy_contexts := [ctx1] }
      , { tag := "b", ncontexts := 2, free_contexts := [], busy_contexts := [ctx2, ctx3] } ] ∧
    (unsafe_get_pool wild5.config.pools (some ctx3.server.tag)).1 =
      some { tag := "a", ncontexts := 1, free_contexts := [], busy_contexts := [ctx1] } ∧
    ctx3 ∉ [ctx1] ∧
    free_shared_context wild5.config ctx3 = some wild6 ∧
    wild6.pools =
      [ { tag := "b", ncontexts := 2, free_contexts := [], busy_contexts := [ctx2] }
      , { tag := "a", ncontexts := 1, free_contexts := [ctx3], busy_contexts := [ctx1] } ] := by
  decide

/-! ## C6: generation change -/

theorem is_valid_context_version (env : Env) (c : redis_context_t) (version : Nat) (now : Int)
    (h : is_valid_context env c version now = true) : c.version = version := by
  unfold is_valid_context at h
  by_contra hne
  simp [hne] at h

theorem invalid_of_version (env : Env) (c : redis_context_t) (version : Nat) (now : Int)
    (h : c.version ≠ version) : is_valid_context env c version now = false := by
  cases hv : is_valid_context env c version now with
  | false => rfl
  | true => exact absurd (is_valid_context_version env c version now hv) h

theorem uint_dec_iterate (k n : Nat) (hk : k ≤ n) (hn : n < 4294967296) :
    uint_dec^[k] n = n - k := by
  induction k generalizing n with
  | zero => rfl
  | succ k ih =>
    rw [Function.iterate_succ_apply, uint_dec_pos n (by omega) hn, ih (n - 1) (by omega) (by omega)]
    omega

/-- The invalid prefix the scan destroys extends past any context it reaches. -/
theorem invalid_prefix_extends {α : Type} (P : α → Prop) :
    ∀ (pre pre1 post1 post : List α) (c : α),
      pre1 ++ post1 = pre ++ c :: post → (∀ x ∈ pre, ¬ P x) → ¬ P c →
      (post1 = [] ∨ ∃ c1 rest, post1 = c1 :: rest ∧ P c1) →
      ∃ mid, pre1 = pre ++ c :: mid ∧ post = mid ++ post1 := by
  intro pre
  induction pre with
  | nil =>
    intro pre1 post1 post c h _ hc hp
    cases pre1 with
    | nil =>
      rcases hp with rfl | ⟨c1, rest, rfl, hc1⟩
      · simp at h
      · simp only [List.nil_append, List.cons.injEq] at h
        exact absurd (h.1 ▸ hc1) hc
    | cons y ys =>
      simp only [List.cons_append, List.nil_append, List.cons.injEq] at h
      exact ⟨ys, by simp [h.1], h.2.symm⟩
  | cons z zs ih =>
    intro pre1 post1 post c h hpre hc hp
    cases pre1 with
    | nil =>
      rcases hp with rfl | ⟨c1, rest, rfl, hc1⟩
      · simp at h
      · simp only [List.nil_append, List.cons_append, List.cons.injEq] at h
        exact absurd (h.1 ▸ hc1) (hpre z (by simp))
    | cons y ys =>
      simp only [List.cons_append, List.cons.injEq] at h
      obtain ⟨mid, h1, h2⟩ := ih ys post1 post c h.2 (fun x hx => hpre x (by simp [hx])) hc hp
      exact ⟨mid, by simp [h.1, h1], h2⟩

/-- A list with an element that passes the test splits around the first such
element. -/
theorem exists_first_match {α : Type} (p : α → Bool) (q : List α)
    (h : ∃ x ∈ q, p x = true) :
    ∃ a x b, q = a ++ x :: b ∧ (∀ y ∈ a, p y = false) ∧ p x = true := by
  cases ht : tailq_take p q with
  | none =>
    obtain ⟨x, hx, hpx⟩ := h
    have := (tailq_take_none p q).mp ht x hx
    rw [hpx] at this
    cases this
  | some yr =>
    obtain ⟨y, r⟩ := yr
    obtain ⟨a, b, hq, ha, hy, _⟩ := tailq_take_some p q y r ht
    exact ⟨a, y, b, hq, ha, hy⟩

/-- A list splits in one way only around its first element that satisfies `P`. -/
theorem first_match_unique {α : Type} (P : α → Prop) :
    ∀ (a a1 : List α) (x x1 : α) (b b1 : List α),
      a ++ x :: b = a1 ++ x1 :: b1 → (∀ y ∈ a, ¬ P y) → P x → (∀ y ∈ a1, ¬ P y) → P x1 →
      a = a1 ∧ x = x1 ∧ b = b1 := by
  intro a
  induction a with
  | nil =>
    intro a1 x x1 b b1 h _ hx ha1 _
    cases a1 with
    | nil =>
      simp only [List.nil_append, List.cons.injEq] at h
      exact ⟨rfl, h.1, h.2⟩
    | cons z zs =>
      simp only [List.nil_append, List.cons_append, List.cons.injEq] at h
      exact absurd (h.1 ▸ hx) (ha1 z (by simp))
  | cons w ws ih =>
    intro a1 x x1 b b1 h ha hx ha1 hx1
    cases a1 with
    | nil =>
      simp only [List.nil_append, List.cons_append, List.cons.injEq] at h
      exact absurd (h.1.symm ▸ hx1) (ha w (by simp))
    | cons z zs =>
      simp only [List.cons_append, List.cons.injEq] at h
      obtain ⟨h1, h2, h3⟩ := ih zs x x1 b b1 h.2 (fun y hy => ha y (by simp [hy])) hx
        (fun y hy => ha1 y (by simp [hy])) hx1
      exact ⟨by rw [h.1, h1], h2, h3⟩

/-- What the shared acquire does with a free context it reaches and finds
invalid: the context is destroyed and leaves the pool, it is not returned, the
call does not block, and the value returned is a later valid free context or,
when there is none, a new context. -/
theorem shared_retry_discards (max_contexts : Nat) (env : Env) (tag : Option String)
    (version : Nat) (now : Int) (servers : List redis_server_t) (pool : redis_context_pool_t)
    (pre post : List redis_context_t) (c : redis_context_t)
    (hmax : max_contexts < 4294967296) (hnd : pool_nodup pool) (hacc : pool_accounting pool)
    (hle : pool.ncontexts ≤ max_contexts) (hfresh : pool_fresh env pool)
    (hfree : pool.free_contexts = pre ++ c :: post)
    (hpre : ∀ x ∈ pre, is_valid_context env x version now = false)
    (hc : is_valid_context env c version now = false) :
    Event.free_redis_context c
      ∈ (shared_retry max_contexts env tag version now servers pool).events ∧
    c ∉ (shared_retry max_contexts env tag version now servers pool).pool.free_contexts ∧
    c ∉ (shared_retry max_contexts env tag version now servers pool).pool.busy_contexts ∧
    (shared_retry max_contexts env tag version now servers pool).outcome
      ≠ Outcome.returned (some c) ∧
    (shared_retry max_contexts env tag version now servers pool).outcome ≠ Outcome.waiting ∧
    (∀ c1, (shared_retry max_contexts env tag version now servers pool).outcome
        = Outcome.returned (some c1) →
      (∃ mid rest, post = mid ++ c1 :: rest ∧
        (∀ x ∈ mid, is_valid_context env x version now = false) ∧
        is_valid_context env c1 version now = true) ∨
      ((∀ x ∈ post, is_valid_context env x version now = false) ∧
        ∃ server, (unsafe_get_server servers tag).1 = some server ∧
          new_rcontext env server = true ∧
          c1 = new_redis_context env.alloc server version now)) ∧
    ((∀ x ∈ post, is_valid_context env x version now = false) →
      ∀ server, (unsafe_get_server servers tag).1 = some server →
        new_rcontext env server = true →
        (shared_retry max_contexts env tag version now servers pool).outcome
          = Outcome.returned (some (new_redis_context env.alloc server version now))) ∧
    (∀ mid c1 rest, post = mid ++ c1 :: rest →
      (∀ x ∈ mid, is_valid_context env x version now = false) →
      is_valid_context env c1 version now = true →
      shared_retry max_contexts env tag version now servers pool =
        { outcome := Outcome.returned (some c1)
          pool := { pool with free_contexts := rest
                              busy_contexts := pool.busy_contexts ++ [c1]
                              ncontexts := pool.ncontexts - (pre.length + 1 + mid.length) }
          servers := servers
          events := (pre ++ c :: mid).map Event.free_redis_context }) := by
  have hdis : ∀ x ∈ pool.free_contexts, x ∉ pool.busy_contexts := fun x hx hb =>
    (List.disjoint_of_nodup_append hnd) hx hb
  have hfnd : pool.free_contexts.Nodup := (List.nodup_append.mp hnd).1
  obtain ⟨pre1, post1, hsplit, hpre1, hcase⟩ :=
    shared_retry_spec max_contexts env tag version now servers pool hdis
  have hshape : post1 = [] ∨ ∃ c1 rest, post1 = c1 :: rest ∧
      is_valid_context env c1 version now = true := by
    rcases hcase with ⟨c1, rest, h1, hv, _⟩ | ⟨h1, _⟩
    · exact Or.inr ⟨c1, rest, h1, hv⟩
    · exact Or.inl h1
  obtain ⟨mid, hmid, hpost⟩ := invalid_prefix_extends
    (fun x => is_valid_context env x version now = true) pre pre1 post1 post c
    (by rw [← hsplit, hfree]) (fun x hx => by simp [hpre x hx]) (by simp [hc]) hshape
  have hmidinv : ∀ x ∈ mid, is_valid_context env x version now = false :=
    fun x hx => hpre1 x (by rw [hmid]; simp [hx])
  have hl : pre1.length = pre.length + 1 + mid.length := by
    rw [hmid, List.length_append, List.length_cons]
    omega
  have hcpre : c ∈ pre1 := by rw [hmid]; simp
  have hcfree : c ∈ pool.free_contexts := by rw [hfree]; simp
  have hev : Event.free_redis_context c ∈ pre1.map Event.free_redis_context :=
    List.mem_map_of_mem _ hcpre
  have hlen : pre1.length ≤ pool.ncontexts := by
    have : pre1.length ≤ pool.free_contexts.length := by rw [hsplit]; simp
    unfold pool_accounting at hacc
    omega
  have hpos : 0 < pre1.length := List.length_pos_of_mem hcpre
  have hn := uint_dec_iterate pre1.length pool.ncontexts hlen (by omega)
  rcases hcase with ⟨c1, rest, rfl, hv, heq⟩ | ⟨rfl, heq⟩
  · have hne : c ≠ c1 := fun h => by rw [h, hv] at hc; cases hc
    have hcrest : c ∉ rest := by
      intro hmem
      rw [hsplit] at hfnd
      exact (List.disjoint_of_nodup_append hfnd) hcpre (List.mem_cons_of_mem _ hmem)
    have hfirst : ∀ mid1 c2 rest1, post = mid1 ++ c2 :: rest1 →
        (∀ x ∈ mid1, is_valid_context env x version now = false) →
        is_valid_context env c2 version now = true →
        shared_retry max_contexts env tag version now servers pool =
          { outcome := Outcome.returned (some c2)
            pool := { pool with free_contexts := rest1
                                busy_contexts := pool.busy_contexts ++ [c2]
                                ncontexts := pool.ncontexts - (pre.length + 1 + mid1.length) }
            servers := servers
            events := (pre ++ c :: mid1).map Event.free_redis_context } := by
      intro mid1 c2 rest1 hp hm hv2
      obtain ⟨h1, h2, h3⟩ := first_match_unique
        (fun x => is_valid_context env x version now = true) mid mid1 c1 c2 rest rest1
        (hpost.symm.trans hp) (fun y hy => by simp [hmidinv y hy]) hv
        (fun y hy => by simp [hm y hy]) hv2
      subst h1 h2 h3
      rw [heq, hn, hl, hmid]
    refine ⟨?_, ?_, ?_, ?_, ?_, ?_, ?_, hfirst⟩
    · rw [heq]
      exact hev
    · rw [heq]
      exact hcrest
    · rw [heq]
      dsimp only
      simp only [List.mem_append, List.mem_singleton, not_or]
      exact ⟨hdis c hcfree, hne⟩
    · rw [heq]
      dsimp only
      simp only [ne_eq, Outcome.returned.injEq, Option.some.injEq]
      exact fun h => hne h.symm
    · rw [heq]
      simp
    · rw [heq]
      dsimp only
      intro c2 hc2
      simp only [Outcome.returned.injEq, Option.some.injEq] at hc2
      subst hc2
      exact Or.inl ⟨mid, rest, hpost, hmidinv, hv⟩
    · intro hall
      have : is_valid_context env c1 version now = false := hall c1 (by rw [hpost]; simp)
      rw [hv] at this
      cases this
  · have hpostinv : ∀ x ∈ post, is_valid_context env x version now = false := by
      intro x hx
      rw [hpost, List.append_nil] at hx
      exact hmidinv x hx
    have habs : ∀ mid1 c2 rest1, post = mid1 ++ c2 :: rest1 →
        is_valid_context env c2 version now = true → False := by
      intro mid1 c2 rest1 hp hv2
      have := hpostinv c2 (by rw [hp]; simp)
      rw [hv2] at this
      cases this
    rw [heq]
    have hlt : uint_dec^[pre1.length] pool.ncontexts < max_contexts := by rw [hn]; omega
    rcases shared_new_spec max_contexts env tag version now servers
      { pool with free_contexts := []
                  ncontexts := uint_dec^[pre1.length] pool.ncontexts }
      (pre1.map Event.free_redis_context) rfl with
      ⟨hs, h⟩ | ⟨server, hs, ⟨hcap, h⟩ | ⟨_, hconn, h⟩ | ⟨_, hconn, h⟩⟩
    · rw [h]
      dsimp only
      refine ⟨by simp [hcpre], by simp, hdis c hcfree, by simp, by simp, by simp, ?_,
        fun mid1 c2 rest1 hp _ hv2 => (habs mid1 c2 rest1 hp hv2).elim⟩
      intro _ server hserver
      rw [hs] at hserver
      cases hserver
    · dsimp only at hcap
      omega
    · rw [h]
      dsimp only
      refine ⟨by simp [hcpre], by simp, hdis c hcfree, by simp, by simp, by simp, ?_,
        fun mid1 c2 rest1 hp _ hv2 => (habs mid1 c2 rest1 hp hv2).elim⟩
      intro _ server1 hserver hconn1
      rw [hs] at hserver
      simp only [Option.some.injEq] at hserver
      subst hserver
      rw [hconn] at hconn1
      cases hconn1
    · rw [h]
      dsimp only
      have hcnew : c ≠ new_redis_context env.alloc server version now := by
        intro heq1
        exact hfresh c (List.mem_append_left _ hcfree) (by rw [heq1]; rfl)
      refine ⟨by simp [hcpre], by simp, ?_, ?_, by simp, ?_, ?_,
        fun mid1 c2 rest1 hp _ hv2 => (habs mid1 c2 rest1 hp hv2).elim⟩
      · simp only [List.mem_append, List.mem_singleton, not_or]
        exact ⟨hdis c hcfree, hcnew⟩
      · simp only [ne_eq, Outcome.returned.injEq, Option.some.injEq]
        exact fun h => hcnew h.symm
      · intro c2 hc2
        simp only [Outcome.returned.injEq, Option.some.injEq] at hc2
        exact Or.inr ⟨hpostinv, server, hs, hconn, hc2.symm⟩
      · intro _ server1 hserver _
        rw [hs] at hserver
        simp only [Option.some.injEq] at hserver
        subst hserver
        rfl

/-- The block `private_new` when a slot is available: no eviction runs. -/
theorem private_new_spec (env : Env) (config : vcl_priv_t) (state : thread_state_t)
    (version : Nat) (now : Int) (events : List Event)
    (hlt : state.ncontexts < config.max_contexts) :
    ((unsafe_get_server config.servers state.tag).1 = none ∧
      private_new env config state version now events =
        { outcome := Outcome.returned none
          config := { config with servers := (unsafe_get_server config.servers state.tag).2 }
          state := state
          events := events ++ [Event.log_no_server state.tag] }) ∨
    (∃ server, (unsafe_get_server config.servers state.tag).1 = some server ∧
      ((new_rcontext env server = false ∧
        private_new env config state version now events =
          { outcome := Outcome.returned none
            config := { config with servers := (unsafe_get_server config.servers state.tag).2 }
            state := state
            events := events ++ [Event.new_rcontext server] }) ∨
       (new_rcontext env server = true ∧
        private_new env config state version now events =
          { outcome := Outcome.returned (some (new_redis_context env.alloc server version now))
            config := { config with servers := (unsafe_get_server config.servers state.tag).2 }
            state := { state with
              contexts := state.contexts ++ [new_redis_context env.alloc server version now]
              ncontexts := uint_inc state.ncontexts }
            events := events ++ [Event.new_rcontext server] }))) := by
  unfold private_new
  rcases hsel : unsafe_get_server config.servers state.tag with ⟨_ | server, servers1⟩
  · left
    exact ⟨rfl, rfl⟩
  · right
    refine ⟨server, rfl, ?_⟩
    dsimp only
    have hcap : ¬ state.ncontexts ≥ config.max_contexts := by omega
    rw [if_neg hcap]
    unfold private_create
    by_cases hconn : new_rcontext env server = true
    · right
      exact ⟨hconn, by rw [if_pos hconn]⟩
    · left
      exact ⟨by simpa using hconn, by rw [if_neg hconn]⟩

/-- What the private acquire does with the cached context it selects and finds
invalid: the context is destroyed and leaves the cache, it is not returned, and
the value returned, if any, is a new context. -/
theorem get_private_context_discards (env : Env) (config : vcl_priv_t) (state : thread_state_t)
    (version : Nat) (c : redis_context_t)
    (hmax : config.max_contexts < 4294967296)
    (hacc : state.ncontexts = state.contexts.length)
    (hle : state.ncontexts ≤ config.max_contexts) (hnd : state.contexts.Nodup)
    (hfresh : ∀ x ∈ state.contexts, x.id ≠ env.alloc)
    (hsel : (tailq_select (fun icontext => tag_matches state.tag icontext.server.tag)
      state.contexts).1 = some c)
    (hc : is_valid_context env c version env.now = false) :
    Event.free_redis_context c ∈ (get_private_context env config state version).events ∧
    c ∉ (get_private_context env config state version).state.contexts ∧
    (get_private_context env config state version).outcome ≠ Outcome.returned (some c) ∧
    (get_private_context env config state version).state.ncontexts
      = (get_private_context env config state version).state.contexts.length ∧
    (∀ c1, (get_private_context env config state version).outcome
        = Outcome.returned (some c1) →
      ∃ server, (unsafe_get_server config.servers state.tag).1 = some server ∧
        new_rcontext env server = true ∧
        c1 = new_redis_context env.alloc server version env.now) ∧
    (∀ server, (unsafe_get_server config.servers state.tag).1 = some server →
      new_rcontext env server = true →
      (get_private_context env config state version).outcome
        = Outcome.returned (some (new_redis_context env.alloc server version env.now)) ∧
      (get_private_context env config state version).state.ncontexts = state.ncontexts) := by
  rcases hts : tailq_select (fun icontext => tag_matches state.tag icontext.server.tag)
    state.contexts with ⟨r, contexts1⟩
  rw [hts] at hsel
  dsimp only at hsel
  subst hsel
  obtain ⟨a, b, hq, _, _, rfl⟩ := tailq_select_some _ _ _ _ hts
  rw [hq] at hnd
  have hca : c ∉ a := fun h => (List.disjoint_of_nodup_append hnd) h (by simp)
  have hcb : c ∉ b := (List.nodup_cons.mp (List.nodup_append.mp hnd).2.1).1
  have hcab : c ∉ a ++ b := by simp [hca, hcb]
  have herase : (a ++ b ++ [c]).erase c = a ++ b := by
    rw [List.erase_append_right _ hcab]
    simp
  have hpos : 0 < state.ncontexts := by rw [hacc, hq]; simp
  have hdec := uint_dec_pos state.ncontexts hpos (by omega)
  have hg : get_private_context env config state version =
      private_new env config
        { state with contexts := a ++ b, ncontexts := uint_dec state.ncontexts }
        version env.now [Event.free_redis_context c] := by
    unfold get_private_context
    rw [hts]
    simp only [hc, herase, Bool.false_eq_true, if_false]
  rw [hg]
  have hlen : state.contexts.length = (a ++ b).length + 1 := by rw [hq]; simp; omega
  rcases private_new_spec env config
    { state with contexts := a ++ b, ncontexts := uint_dec state.ncontexts }
    version env.now [Event.free_redis_context c] (by dsimp only; omega) with
    ⟨hs, h⟩ | ⟨server, hs, ⟨hconn, h⟩ | ⟨hconn, h⟩⟩
  · rw [h]
    dsimp only at hs ⊢
    refine ⟨by simp, hcab, by simp, by omega, by simp, ?_⟩
    intro server hserver
    rw [hs] at hserver
    cases hserver
  · rw [h]
    dsimp only at hs ⊢
    refine ⟨by simp, hcab, by simp, by omega, by simp, ?_⟩
    intro server1 hserver hconn1
    rw [hs] at hserver
    simp only [Option.some.injEq] at hserver
    subst hserver
    rw [hconn] at hconn1
    cases hconn1
  · rw [h]
    dsimp only at hs ⊢
    have hcnew : c ≠ new_redis_context env.alloc server version env.now := by
      intro heq1
      exact hfresh c (by rw [hq]; simp) (by rw [heq1]; rfl)
    have hinc := uint_inc_lt (uint_dec state.ncontexts) (by omega)
    refine ⟨by simp, ?_, ?_, ?_, ?_, ?_⟩
    · simp only [List.mem_append, List.mem_singleton, not_or]
      exact ⟨⟨hca, hcb⟩, hcnew⟩
    · simp only [ne_eq, Outcome.returned.injEq, Option.some.injEq]
      exact fun h => hcnew h.symm
    · rw [hinc, List.length_append, List.length_singleton]
      omega
    · intro c2 hc2
      simp only [Outcome.returned.injEq, Option.some.injEq] at hc2
      exact ⟨server, hs, hconn, hc2.symm⟩
    · intro server1 hserver _
      rw [hs] at hserver
      simp only [Option.some.injEq] at hserver
      subst hserver
      exact ⟨rfl, by rw [hinc]; omega⟩

/-- C6 as stated fails in shared mode. The pool holds the free contexts `ctx_old`
(generation 6) and `ctx1` (generation 7); an acquire with generation 7 takes
`ctx_old` as its first candidate and destroys it; a server for the tag exists
and a connection attempt would succeed; yet the value returned is `ctx1`, the
next free context, not a newly created one, and no connection is attempted. -/
theorem generation_change_counterexample :
    pool_two_free.free_contexts = [ctx_old, ctx1] ∧
    ctx_old.version ≠ 7 ∧
    (unsafe_get_server [server_a] (some "a")).1 = some server_a ∧
    new_rcontext (env_ok 9 8) server_a = true ∧
    (shared_retry 5 (env_ok 9 8) (some "a") 7 9 [server_a] pool_two_free).events
      = [Event.free_redis_context ctx_old] ∧
    (shared_retry 5 (env_ok 9 8) (some "a") 7 9 [server_a] pool_two_free).outcome
      = Outcome.returned (some ctx1) ∧
    (shared_retry 5 (env_ok 9 8) (some "a") 7 9 [server_a] pool_two_free).outcome
      ≠ Outcome.returned (some (new_redis_context 8 server_a 7 9)) := by
  decide

/-- C6, amended. A context created under a generation other than the one the
acquire is called with, once taken as reuse candidate (private mode: the cache
entry selected for the tag; shared mode: a free context the scan reaches), is
destroyed and leaves its cache or pool, the accounting invariant holding
afterwards, and it is not the value returned; every value the call returns
carries the generation of the call. In private mode the value returned, if any,
is newly created, and it is returned whenever a server for the tag exists and
the connection is established. In shared mode the call does not block and the
scan goes on. When a later free context is valid, there is a first such
context in list order and the call returns it, having destroyed every free
context before it, with one decrement of the live count each, and without
attempting a connection; a value returned from the free list is that first
valid one. When
no later free context is valid, a value returned is newly created, and one is
returned whenever a server for the tag exists and the connection is
established. Caches and pools are well formed: accounting, live count within
capacity, no context twice, allocation of an object not yet present. -/
theorem generation_change :
    (∀ (env : Env) (config : vcl_priv_t) (state : thread_state_t) (version : Nat)
        (c : redis_context_t),
      config.max_contexts < 4294967296 →
      state.ncontexts = state.contexts.length →
      state.ncontexts ≤ config.max_contexts → state.contexts.Nodup →
      (∀ x ∈ state.contexts, x.id ≠ env.alloc) →
      (tailq_select (fun icontext => tag_matches state.tag icontext.server.tag)
        state.contexts).1 = some c →
      c.version ≠ version →
      Event.free_redis_context c ∈ (get_private_context env config state version).events ∧
      c ∉ (get_private_context env config state version).state.contexts ∧
      (get_private_context env config state version).state.ncontexts
        = (get_private_context env config state version).state.contexts.length ∧
      (get_private_context env config state version).outcome ≠ Outcome.returned (some c) ∧
      (∀ c1, (get_private_context env config state version).outcome
          = Outcome.returned (some c1) →
        c1.version = version ∧
        ∃ server, (unsafe_get_server config.servers state.tag).1 = some server ∧
          c1 = new_redis_context env.alloc server version env.now) ∧
      (∀ server, (unsafe_get_server config.servers state.tag).1 = some server →
        new_rcontext env server = true →
        (get_private_context env config state version).outcome
          = Outcome.returned (some (new_redis_context env.alloc server version env.now)))) ∧
    (∀ (max_contexts : Nat) (env : Env) (tag : Option String) (version : Nat) (now : Int)
        (servers : List redis_server_t) (pool : redis_context_pool_t)
        (pre post : List redis_context_t) (c : redis_context_t),
      max_contexts < 4294967296 → pool_nodup pool → pool_accounting pool →
      pool.ncontexts ≤ max_contexts → pool_fresh env pool →
      pool.free_contexts = pre ++ c :: post →
      (∀ x ∈ pre, is_valid_context env x version now = false) →
      c.version ≠ version →
      Event.free_redis_context c
        ∈ (shared_retry max_contexts env tag version now servers pool).events ∧
      c ∉ (shared_retry max_contexts env tag version now servers pool).pool.free_contexts ∧
      c ∉ (shared_retry max_contexts env tag version now servers pool).pool.busy_contexts ∧
      pool_accounting (shared_retry max_contexts env tag version now servers pool).pool ∧
      (shared_retry max_contexts env tag version now servers pool).outcome
        ≠ Outcome.returned (some c) ∧
      (shared_retry max_contexts env tag version now servers pool).outcome
        ≠ Outcome.waiting ∧
      (∀ c1, (shared_retry max_contexts env tag version now servers pool).outcome
          = Outcome.returned (some c1) →
        c1.version = version ∧
        ((∃ mid rest, post = mid ++ c1 :: rest ∧
            (∀ x ∈ mid, is_valid_context env x version now = false) ∧
            is_valid_context env c1 version now = true) ∨
          ((∀ x ∈ post, is_valid_context env x version now = false) ∧
            ∃ server, (unsafe_get_server servers tag).1 = some server ∧
              new_rcontext env server = true ∧
              c1 = new_redis_context env.alloc server version now))) ∧
      (∀ mid c1 rest, post = mid ++ c1 :: rest →
        (∀ x ∈ mid, is_valid_context env x version now = false) →
        is_valid_context env c1 version now = true →
        shared_retry max_contexts env tag version now servers pool =
          { outcome := Outcome.returned (some c1)
            pool := { pool with free_contexts := rest
                                busy_contexts := pool.busy_contexts ++ [c1]
                                ncontexts := pool.ncontexts - (pre.length + 1 + mid.length) }
            servers := servers
            events := (pre ++ c :: mid).map Event.free_redis_context }) ∧
      ((∃ x ∈ post, is_valid_context env x version now = true) →
        ∃ mid c1 rest, post = mid ++ c1 :: rest ∧
          (∀ x ∈ mid, is_valid_context env x version now = false) ∧
          is_valid_context env c1 version now = true ∧
          (shared_retry max_contexts env tag version now servers pool).outcome
            = Outcome.returned (some c1)) ∧
      ((∀ x ∈ post, is_valid_context env x version now = false) →
        ∀ server, (unsafe_get_server servers tag).1 = some server →
          new_rcontext env server = true →
          (shared_retry max_contexts env tag version now servers pool).outcome
            = Outcome.returned (some (new_redis_context env.alloc server version now)))) := by
  constructor
  · intro env config state version c hmax hacc hle hnd hfresh hsel hver
    obtain ⟨h1, h2, h3, h4, h5, h6⟩ := get_private_context_discards env config state version c
      hmax hacc hle hnd hfresh hsel (invalid_of_version env c version env.now hver)
    refine ⟨h1, h2, h4, h3, ?_, fun server hs hconn => (h6 server hs hconn).1⟩
    intro c1 hc1
    obtain ⟨server, hs, _, rfl⟩ := h5 c1 hc1
    exact ⟨rfl, server, hs, rfl⟩
  · intro max_contexts env tag version now servers pool pre post c hmax hnd hacc hle hfresh
      hfree hpre hver
    obtain ⟨h1, h2, h3, h4, h5, h6, h7, h8⟩ := shared_retry_discards max_contexts env tag
      version now servers pool pre post c hmax hnd hacc hle hfresh hfree hpre
      (invalid_of_version env c version now hver)
    have hinv := shared_retry_inv max_contexts env tag version now servers pool hmax hacc
      (by omega)
    refine ⟨h1, h2, h3, hinv.1, h4, h5, ?_, h8, ?_, h7⟩
    rotate_left
    · intro hex
      obtain ⟨mid, c1, rest, hp, hm, hv⟩ :=
        exists_first_match (fun x => is_valid_context env x version now) post hex
      exact ⟨mid, c1, rest, hp, hm, hv, by rw [h8 mid c1 rest hp hm hv]⟩
    intro c1 hc1
    rcases h6 c1 hc1 with ⟨mid, rest, hp, hm, hv⟩ | ⟨hall, server, hs, hconn, rfl⟩
    · exact ⟨is_valid_context_version env c1 version now hv, Or.inl ⟨mid, rest, hp, hm, hv⟩⟩
    · exact ⟨rfl, Or.inr ⟨hall, server, hs, hconn, rfl⟩⟩

/-- Instance of the amended C6: the private cache `state_old` holds `ctx_old` of
generation 6; an acquire with generation 7 destroys it and returns a new
context of generation 7; the shared acquire of the counterexample does not
return `ctx_old`; and on the free list `ctx_old`, `ctx1`, `ctx3`, where both
`ctx1` and `ctx3` are valid, the shared acquire destroys `ctx_old` and returns
`ctx1`, the first of them, leaving `ctx3` free. -/
theorem generation_change_witness :
    (get_private_context (env_ok 9 8) config_private state_old 7).outcome
      = Outcome.returned (some (new_redis_context 8 server_a 7 9)) ∧
    (get_private_context (env_ok 9 8) config_private state_old 7).state.contexts
      = [new_redis_context 8 server_a 7 9] ∧
    (shared_retry 5 (env_ok 9 8) (some "a") 7 9 [server_a] pool_two_free).outcome
      ≠ Outcome.returned (some ctx_old) ∧
    shared_retry 5 (env_ok 9 8) (some "a") 7 9 [server_a] pool_three_free =
      { outcome := Outcome.returned (some ctx1)
        pool := { tag := "a", ncontexts := 3, free_contexts := [ctx3]
                  busy_contexts := [new_redis_context 9 server_a 7 2, ctx1] }
        servers := [server_a]
        events := [Event.free_redis_context ctx_old] } :=
  ⟨(generation_change.1 (env_ok 9 8) config_private state_old 7 ctx_old (by decide)
      (by decide) (by decide) (by decide) (by decide) (by decide) (by decide)).2.2.2.2.2
      server_a (by decide) (by decide),
   by decide,
   (generation_change.2 5 (env_ok 9 8) (some "a") 7 9 [server_a] pool_two_free [] [ctx1]
      ctx_old (by decide) (by decide) (by decide) (by decide) (by decide) (by decide)
      (by decide) (by decide)).2.2.2.2.1,
   (generation_change.2 5 (env_ok 9 8) (some "a") 7 9 [server_a] pool_three_free []
      [ctx1, ctx3] ctx_old (by decide) (by decide) (by decide) (by decide) (by decide)
      (by decide) (by decide) (by decide)).2.2.2.2.2.2.2.1 [] ctx1 [ctx3] rfl (by decide)
      (by decide)⟩

/-! ## C7: TTL expiry -/

/-- C7, evaluated on the hand-over after a wait. Capacity 1, TTL 10 seconds,
`ctx_ttl` created at time 0 and busy. An acquire entered at time 5 (so its
local `now` is 5) finds no free context and waits. The holder releases
`ctx_ttl`, and the waiting thread wakes up at time 100: the body runs again
with the `now` of the entry, for which the age of `ctx_ttl` is 5, and returns
`ctx_ttl`, whose age at that moment is 100, without destroying anything. An
acquire entered at time 100 on the same pool destroys `ctx_ttl` and returns a
new context. -/
theorem ttl_stale_now_after_wait :
    (shared_retry 1 (env_ok 5 2) (some "a") 7 (env_ok 5 2).now [server_ttl] pool_held).outcome
      = Outcome.waiting ∧
    (shared_retry 1 (env_ok 5 2) (some "a") 7 (env_ok 5 2).now [server_ttl] pool_held).pool
      = pool_held ∧
    pool_release pool_held ctx_ttl = pool_released ∧
    ctx_ttl.server.ttl ≠ 0 ∧
    (env_ok 100 2).now - ctx_ttl.tst > (ctx_ttl.server.ttl : Int) ∧
    (shared_retry 1 (env_ok 100 2) (some "a") 7 (env_ok 5 2).now [server_ttl]
        pool_released).outcome = Outcome.returned (some ctx_ttl) ∧
    (shared_retry 1 (env_ok 100 2) (some "a") 7 (env_ok 5 2).now [server_ttl]
        pool_released).events = [] ∧
    (shared_retry 1 (env_ok 100 2) (some "a") 7 (env_ok 100 2).now [server_ttl]
        pool_released).outcome
      = Outcome.returned (some (new_redis_context 2 server_ttl 7 100)) ∧
    (shared_retry 1 (env_ok 100 2) (some "a") 7 (env_ok 100 2).now [server_ttl]
        pool_released).events
      = [Event.free_redis_context ctx_ttl, Event.new_rcontext server_ttl] := by
  decide

/-! ## C8: validity predicate -/

/-- C8. Validity predicate: `is_valid_context` returns false when (a) the error flag
of the link is set, (b) the generation of the context differs from the one
supplied, (c) the TTL of the server is nonzero and `now - tst` exceeds it, or
(d) the probe reports hang-up; it returns true when none of (a)-(c) holds and
the probe reports the descriptor ready for writing (`poll` returns 1 with
`POLLOUT`) without `POLLHUP`. In particular, under those conditions on the
link and the generation, a TTL of 0 never invalidates whatever the age, and an
age equal to the TTL is still valid. -/
theorem is_valid_context_spec (env : Env) (context : redis_context_t) (version : Nat)
    (now : Int) :
    (env.err context ≠ 0 → is_valid_context env context version now = false) ∧
    (context.version ≠ version → is_valid_context env context version now = false) ∧
    (context.server.ttl ≠ 0 → now - context.tst > (context.server.ttl : Int) →
      is_valid_context env context version now = false) ∧
    (env.poll_revents context &&& POLLHUP ≠ 0 →
      is_valid_context env context version now = false) ∧
    (env.err context = 0 → context.version = version →
      ¬ (context.server.ttl ≠ 0 ∧ now - context.tst > (context.server.ttl : Int)) →
      env.poll_ret context = 1 → env.poll_revents context &&& POLLOUT ≠ 0 →
      env.poll_revents context &&& POLLHUP = 0 →
      is_valid_context env context version now = true) ∧
    (env.err context = 0 → context.version = version → context.server.ttl = 0 →
      env.poll_ret context = 1 → env.poll_revents context &&& POLLOUT ≠ 0 →
      env.poll_revents context &&& POLLHUP = 0 →
      is_valid_context env context version now = true) ∧
    (env.err context = 0 → context.version = version →
      now - context.tst = (context.server.ttl : Int) →
      env.poll_ret context = 1 → env.poll_revents context &&& POLLOUT ≠ 0 →
      env.poll_revents context &&& POLLHUP = 0 →
      is_valid_context env context version now = true) := by
  have key : ∀ (_ : env.err context = 0) (_ : context.version = version)
      (_ : ¬ (context.server.ttl ≠ 0 ∧ now - context.tst > (context.server.ttl : Int)))
      (_ : env.poll_ret context = 1) (_ : env.poll_revents context &&& POLLHUP = 0),
      is_valid_context env context version now = true := by
    intro h1 h2 h3 h4 h5
    unfold is_valid_context
    have h3' : ¬ (context.server.ttl > 0 ∧ now - context.tst > (context.server.ttl : Int)) :=
      fun h => h3 ⟨by omega, h.2⟩
    simp [h1, h2, h3', h4, h5]
  refine ⟨?_, ?_, ?_, ?_, ?_, ?_, ?_⟩
  · intro h
    unfold is_valid_context
    simp [h]
  · intro h
    exact invalid_of_version env context version now h
  · intro h1 h2
    unfold is_valid_context
    have : context.server.ttl > 0 ∧ now - context.tst > (context.server.ttl : Int) :=
      ⟨by omega, h2⟩
    simp [this]
  · intro h
    unfold is_valid_context
    simp [h]
  · intro h1 h2 h3 h4 _ h5
    exact key h1 h2 h3 h4 h5
  · intro h1 h2 h3 h4 _ h5
    exact key h1 h2 (fun h => h.1 h3) h4 h5
  · intro h1 h2 h3 h4 _ h5
    exact key h1 h2 (fun h => by omega) h4 h5

/-- Instance of C8: a context of age 10 on a server with TTL 10 is valid. -/
theorem is_valid_context_spec_witness :
    is_valid_context (env_ok 10 0) ctx_ttl 7 10 = true :=
  (is_valid_context_spec (env_ok 10 0) ctx_ttl 7 10).2.2.2.2.2.2
    (by decide) (by decide) (by decide) (by decide) (by decide) (by decide)

/-! ## C9: unknown tag -/

theorem tailq_select_no_match {α : Type} (p : α → Bool) (q : List α)
    (h : ∀ y ∈ q, p y = false) : tailq_select p q = (none, q) := by
  unfold tailq_select
  rw [(tailq_take_none p q).mpr h]

theorem tag_matches_some_ne (t entry_tag : String) (h : entry_tag ≠ t) :
    tag_matches (some t) entry_tag = false := by
  unfold tag_matches
  simp only [beq_eq_false_iff_ne, ne_eq]
  exact fun heq => h heq.symm

/-- C9. Unknown tag: when no server and no pool carries the tag `t` and every cached
context belongs to a configured server, `get_context` for `t`, in private and
in shared mode and under any environment, returns `NULL`, has the report of the
missing server as its only effect (no connection is attempted, no context is
destroyed), and leaves the configuration (both registries in their order, every
pool) and the private cache as they were; so any repetition of the call gives
the same result. -/
theorem unknown_tag (env : Env) (config : vcl_priv_t) (state : thread_state_t)
    (version : Nat) (t : String) (htag : state.tag = some t)
    (hservers : ∀ s ∈ config.servers, s.tag ≠ t)
    (hpools : ∀ p ∈ config.pools, p.tag ≠ t)
    (hcache : ∀ c ∈ state.contexts, c.server ∈ config.servers) :
    (get_context env config state version).outcome = Outcome.returned none ∧
    (get_context env config state version).events = [Event.log_no_server (some t)] ∧
    (get_context env config state version).config = config ∧
    (get_context env config state version).state = state ∧
    ∀ env1 : Env,
      get_context env1 (get_context env config state version).config
        (get_context env config state version).state version
      = { outcome := Outcome.returned none, config := config, state := state
          events := [Event.log_no_server (some t)] } := by
  have hsel_servers : unsafe_get_server config.servers (some t) = (none, config.servers) :=
    tailq_select_no_match _ _ (fun s hs => tag_matches_some_ne t s.tag (hservers s hs))
  have hsel_pools : unsafe_get_pool config.pools (some t) = (none, config.pools) :=
    tailq_select_no_match _ _ (fun p hp => tag_matches_some_ne t p.tag (hpools p hp))
  have hsel_cache : tailq_select
      (fun icontext : redis_context_t => tag_matches (some t) icontext.server.tag)
      state.contexts = (none, state.contexts) :=
    tailq_select_no_match _ _
      (fun c hc => tag_matches_some_ne t c.server.tag (hservers c.server (hcache c hc)))
  have hall : ∀ env1 : Env, get_context env1 config state version =
      { outcome := Outcome.returned none, config := config, state := state
        events := [Event.log_no_server (some t)] } := by
    intro env1
    unfold get_context
    split
    · unfold get_shared_context
      simp only [htag, hsel_pools]
    · unfold get_private_context
      simp only [htag, hsel_cache]
      unfold private_new
      simp only [htag, hsel_servers, List.nil_append]
      rw [← htag]
  rw [hall env]
  exact ⟨rfl, rfl, rfl, rfl, hall⟩

/-- Instance of C9 in private mode: the tag `z` on a configuration with the tags
`a` and `b` and a cache holding a context of server `a`. -/
theorem unknown_tag_witness :
    (get_context (env_ok 0 1) config_ab_private state_z 7).outcome = Outcome.returned none ∧
    (get_context (env_ok 0 1) config_ab_private state_z 7).state = state_z :=
  have h := unknown_tag (env_ok 0 1) config_ab_private state_z 7 "z" rfl (by decide)
    (by decide) (by decide)
  ⟨h.1, h.2.2.2.1⟩

/-! ## C10: blocking hand-over -/

/-- C13. Private release is a no-op: when the `shared_contexts` flag of the
configuration is 0, `free_context` of any context is defined and leaves the
configuration (both registries, every pool) and the thread state (cache list
and live count) exactly as they were; a context that was in the cache is still
in it. -/
theorem private_release_noop (config : vcl_priv_t) (state : thread_state_t)
    (context : redis_context_t) (hprivate : config.shared_contexts = 0) :
    free_context config state context = some (config, state) ∧
    ∀ config1 state1, free_context config state context = some (config1, state1) →
      config1.servers = config.servers ∧ config1.pools = config.pools ∧
      state1.contexts = state.contexts ∧ state1.ncontexts = state.ncontexts ∧
      (context ∈ state.contexts → context ∈ state1.contexts) := by
  have h : free_context config state context = some (config, state) := by
    unfold free_context
    simp [hprivate]
  refine ⟨h, ?_⟩
  intro config1 state1 h1
  rw [h] at h1
  simp only [Option.some.injEq, Prod.mk.injEq] at h1
  obtain ⟨rfl, rfl⟩ := h1
  exact ⟨rfl, rfl, rfl, rfl, fun hc => hc⟩

/-- Instance of C13: releasing `ctx1` in the private configuration `config_ab_private`
with the cache `state_z`, which holds `ctx1`. -/
theorem private_release_noop_witness :
    free_context config_ab_private state_z ctx1 = some (config_ab_private, state_z) ∧
    ctx1 ∈ state_z.contexts :=
  ⟨(private_release_noop config_ab_private state_z ctx1 rfl).1, by decide⟩

/-! ## C14: selection result and rotation -/

theorem tailq_select_spec {α : Type} (p : α → Bool) (q : List α) :
    (tailq_select p q).1 = q.find? p ∧
    (∀ x, (tailq_select p q).1 = some x →
      ∃ a b, q = a ++ x :: b ∧ (∀ y ∈ a, p y = false) ∧ p x = true ∧
        (tailq_select p q).2 = a ++ b ++ [x]) ∧
    ((tailq_select p q).1 = none →
      (tailq_select p q).2 = q ∧ ∀ y ∈ q, p y = false) := by
  rcases h : tailq_select p q with ⟨r, q1⟩
  cases r with
  | none =>
    obtain ⟨rfl, hall⟩ := tailq_select_none p q q1 h
    refine ⟨?_, ?_, ?_⟩
    · symm
      rw [List.find?_eq_none]
      intro y hy
      simp [hall y hy]
    · intro x hx
      simp at hx
    · intro _
      exact ⟨rfl, hall⟩
  | some x =>
    obtain ⟨a, b, hq, ha, hx, hq1⟩ := tailq_select_some p q x q1 h
    refine ⟨?_, ?_, ?_⟩
    rotate_left 2
    · intro hn
      simp at hn
    · subst hq
      symm
      dsimp only
      rw [List.find?_append]
      have : a.find? p = none := by
        rw [List.find?_eq_none]
        intro y hy
        simp [ha y hy]
      simp [this, hx]
    · intro x1 hx1
      simp only [Option.some.injEq] at hx1
      subst hx1
      exact ⟨a, b, hq, ha, hx, hq1⟩

theorem tag_matches_iff (tag : Option String) (entry_tag : String) :
    tag_matches tag entry_tag = true ↔ tag = none ∨ tag = some entry_tag := by
  cases tag with
  | none => simp [tag_matches]
  | some t => simp [tag_matches]

/-- C14. Selection result and rotation. The test applied to an entry succeeds
exactly when the requested tag is the `NULL` wildcard or equals the tag of the
entry. `unsafe_get_server` (resp. `unsafe_get_pool`) returns the first entry of
the registry, in list order, that passes the test: the head of the list for the
wildcard. When it returns an entry `x`, the registry was `a ++ x :: b` with no
entry of `a` passing the test, and it is `a ++ b ++ [x]` afterwards: `x` is
taken out of its position and appended at the tail, the other entries keep
their order, none is added or lost. When no entry passes the test it returns
`NULL` and the registry is unchanged. -/
theorem selection_result_and_rotation (tag : Option String) :
    (∀ entry_tag, tag_matches tag entry_tag = true ↔ tag = none ∨ tag = some entry_tag) ∧
    (∀ servers : List redis_server_t,
      (unsafe_get_server servers tag).1
        = servers.find? (fun s => tag_matches tag s.tag) ∧
      (tag = none → (unsafe_get_server servers tag).1 = servers.head?) ∧
      (∀ x, (unsafe_get_server servers tag).1 = some x →
        ∃ a b, servers = a ++ x :: b ∧ (∀ y ∈ a, tag_matches tag y.tag = false) ∧
          tag_matches tag x.tag = true ∧
          (unsafe_get_server servers tag).2 = a ++ b ++ [x]) ∧
      ((unsafe_get_server servers tag).1 = none →
        (unsafe_get_server servers tag).2 = servers ∧
        ∀ y ∈ servers, tag_matches tag y.tag = false)) ∧
    (∀ pools : List redis_context_pool_t,
      (unsafe_get_pool pools tag).1
        = pools.find? (fun p => tag_matches tag p.tag) ∧
      (tag = none → (unsafe_get_pool pools tag).1 = pools.head?) ∧
      (∀ x, (unsafe_get_pool pools tag).1 = some x →
        ∃ a b, pools = a ++ x :: b ∧ (∀ y ∈ a, tag_matches tag y.tag = false) ∧
          tag_matches tag x.tag = true ∧
          (unsafe_get_pool pools tag).2 = a ++ b ++ [x]) ∧
      ((unsafe_get_pool pools tag).1 = none →
        (unsafe_get_pool pools tag).2 = pools ∧
        ∀ y ∈ pools, tag_matches tag y.tag = false)) := by
  refine ⟨tag_matches_iff tag, ?_, ?_⟩
  · intro servers
    obtain ⟨h1, h2, h3⟩ :=
      tailq_select_spec (fun s : redis_server_t => tag_matches tag s.tag) servers
    refine ⟨h1, ?_, h2, h3⟩
    intro hnone
    subst hnone
    show (tailq_select (fun s : redis_server_t => tag_matches none s.tag) servers).1 = _
    rw [h1]
    cases servers <;> simp [tag_matches]
  · intro pools
    obtain ⟨h1, h2, h3⟩ :=
      tailq_select_spec (fun p : redis_context_pool_t => tag_matches tag p.tag) pools
    refine ⟨h1, ?_, h2, h3⟩
    intro hnone
    subst hnone
    show (tailq_select (fun p : redis_context_pool_t => tag_matches none p.tag) pools).1 = _
    rw [h1]
    cases pools <;> simp [tag_matches]

/-- Instance of C14 on the registry `[server_b, server_a, server_a2]`: the tag `a`
selects `server_a` and moves it to the tail, the wildcard selects `server_b`,
and the tag `z` selects nothing and leaves the registry as it is. -/
theorem selection_result_and_rotation_witness :
    unsafe_get_server [server_b, server_a, server_a2] (some "a")
      = (some server_a, [server_b, server_a2, server_a]) ∧
    unsafe_get_server [server_b, server_a, server_a2] none
      = (some server_b, [server_a, server_a2, server_b]) ∧
    unsafe_get_server [server_b, server_a, server_a2] (some "z")
      = (none, [server_b, server_a, server_a2]) ∧
    (unsafe_get_server [server_b, server_a, server_a2] (some "a")).1
      = [server_b, server_a, server_a2].find? (fun s => tag_matches (some "a") s.tag) :=
  ⟨by decide, by decide, by decide,
   ((selection_result_and_rotation (some "a")).2.1 [server_b, server_a, server_a2]).1⟩

/-! ## C18: private cache accounting and bound -/

theorem private_create_inv (env : Env) (config : vcl_priv_t) (state : thread_state_t)
    (server : redis_server_t) (version : Nat) (now : Int) (events : List Event) (C : Nat)
    (hC : C < 4294967296) (hacc : state.ncontexts = state.contexts.length)
    (hlt : state.ncontexts < C) :
    (private_create env config state server version now events).state.ncontexts
      = (private_create env config state server version now events).state.contexts.length ∧
    (private_create env config state server version now events).state.ncontexts ≤ C ∧
    (private_create env config state server version now events).outcome ≠ Outcome.abort := by
  unfold private_create
  split
  · have hinc := uint_inc_lt state.ncontexts (by omega)
    dsimp only
    rw [hinc, List.length_append, List.length_singleton]
    exact ⟨by omega, by omega, by simp⟩
  · exact ⟨hacc, by dsimp only; omega, by simp⟩

theorem private_new_inv (env : Env) (config : vcl_priv_t) (state : thread_state_t)
    (version : Nat) (now : Int) (events : List Event)
    (hC1 : 1 ≤ config.max_contexts) (hC : config.max_contexts < 4294967296)
    (hacc : state.ncontexts = state.contexts.length)
    (hle : state.ncontexts ≤ config.max_contexts) :
    (private_new env config state version now events).state.ncontexts
      = (private_new env config state version now events).state.contexts.length ∧
    (private_new env config state version now events).state.ncontexts
      ≤ config.max_contexts ∧
    (private_new env config state version now events).outcome ≠ Outcome.abort := by
  unfold private_new
  split
  · exact ⟨hacc, hle, by simp⟩
  · rename_i server servers hsel
    split
    · rename_i hcap
      split
      · rename_i hnil
        rw [hnil] at hacc
        simp only [List.length_nil] at hacc
        omega
      · rename_i icontext rest hcons
        have hdec := uint_dec_pos state.ncontexts (by omega) (by omega)
        have hlen : (state.contexts.erase icontext).length = state.contexts.length - 1 :=
          List.length_erase_of_mem (by rw [hcons]; simp)
        exact private_create_inv env _ _ server version now _ config.max_contexts hC
          (by dsimp only; rw [hdec, hlen, hacc]) (by dsimp only; rw [hdec]; omega)
    · rename_i hcap
      exact private_create_inv env _ state server version now events config.max_contexts hC
        hacc (by omega)

/-- C18. Private cache accounting and bound: for every capacity between 1 and the
largest `unsigned`, and every private cache whose live count equals the length
of its list and is at most the capacity, `get_private_context`, under any
environment (hence on every path: reuse, discard of an invalid candidate,
server not found, eviction, connect success, connect failure), ends with the
live count equal to the length of the list and at most the capacity, and no
assertion fails: when the eviction step runs the list is not empty. -/
theorem private_cache_accounting_and_bound (env : Env) (config : vcl_priv_t)
    (state : thread_state_t) (version : Nat)
    (hC1 : 1 ≤ config.max_contexts) (hC : config.max_contexts < 4294967296)
    (hacc : state.ncontexts = state.contexts.length)
    (hle : state.ncontexts ≤ config.max_contexts) :
    (get_private_context env config state version).state.ncontexts
      = (get_private_context env config state version).state.contexts.length ∧
    (get_private_context env config state version).state.ncontexts
      ≤ config.max_contexts ∧
    (get_private_context env config state version).outcome ≠ Outcome.abort ∧
    ∀ state1 : thread_state_t,
      state1.ncontexts = state1.contexts.length →
      state1.ncontexts ≥ config.max_contexts → state1.contexts ≠ [] := by
  have main : (get_private_context env config state version).state.ncontexts
        = (get_private_context env config state version).state.contexts.length ∧
      (get_private_context env config state version).state.ncontexts
        ≤ config.max_contexts ∧
      (get_private_context env config state version).outcome ≠ Outcome.abort := by
    unfold get_private_context
    dsimp only
    split
    · rename_i result contexts hsel
      obtain ⟨a, b, hq, _, _, rfl⟩ := tailq_select_some _ _ _ _ hsel
      have hlen : (a ++ b ++ [result]).length = state.contexts.length := by
        rw [hq]; simp
      split
      · refine ⟨?_, ?_, by simp⟩
        · show state.ncontexts = (a ++ b ++ [result]).length
          rw [hlen]; exact hacc
        · exact hle
      · have hpos : 0 < state.ncontexts := by rw [hacc, hq]; simp
        have hdec := uint_dec_pos state.ncontexts hpos (by omega)
        have hlen1 : ((a ++ b ++ [result]).erase result).length
            = state.contexts.length - 1 := by
          rw [List.length_erase_of_mem (by simp), hlen]
        exact private_new_inv env config _ version env.now _ hC1 hC
          (by dsimp only; rw [hdec, hlen1, hacc]) (by dsimp only; rw [hdec]; omega)
    · rename_i contexts hsel
      obtain ⟨rfl, _⟩ := tailq_select_none _ _ _ hsel
      exact private_new_inv env config
        { state with contexts := state.contexts } version env.now [] hC1 hC hacc hle
  refine ⟨main.1, main.2.1, main.2.2, ?_⟩
  intro state1 h1 h2 hnil
  rw [hnil] at h1
  simp only [List.length_nil] at h1
  omega

/-- Instance of C18 on the eviction path: capacity 1, cache `[ctx1]` (tag `a`),
request for tag `b`; `ctx1` is evicted, a context of `server_b` takes its place
and the live count is 1. -/
theorem private_cache_accounting_and_bound_witness :
    (get_private_context (env_ok 4 2) config_ab_one state_full 7).events
      = [Event.free_redis_context ctx1, Event.new_rcontext server_b] ∧
    (get_private_context (env_ok 4 2) config_ab_one state_full 7).state.ncontexts = 1 ∧
    (get_private_context (env_ok 4 2) config_ab_one state_full 7).state.ncontexts
      = (get_private_context (env_ok 4 2) config_ab_one state_full 7).state.contexts.length :=
  ⟨by decide, by decide,
   (private_cache_accounting_and_bound (env_ok 4 2) config_ab_one state_full 7
      (by decide) (by decide) (by decide) (by decide)).1⟩

/-! ## C19: the free list is empty at the capacity check -/

theorem free_scan_none_empties (env : Env) (version : Nat) (now : Int) :
    ∀ (free : List redis_context_t) (pool : redis_context_pool_t),
      (free_scan env version now free pool).result = none →
      (free_scan env version now free pool).pool.free_contexts = [] := by
  intro free
  induction free with
  | nil => intro pool _; rfl
  | cons c rest ih =>
    intro pool h
    rw [free_scan] at h ⊢
    dsimp only at h ⊢
    split at h
    · cases h
    · rename_i hv
      rw [if_neg hv]
      exact ih _ h

theorem shared_new_waits (max_contexts : Nat) (env : Env) (tag : Option String)
    (version : Nat) (now : Int) (servers : List redis_server_t) (pool : redis_context_pool_t)
    (events : List Event) (server : redis_server_t) (hfree : pool.free_contexts = [])
    (hserver : (unsafe_get_server servers tag).1 = some server)
    (hcap : pool.ncontexts ≥ max_contexts) :
    shared_new max_contexts env tag version now servers pool events =
      { outcome := Outcome.waiting, pool := pool
        servers := (unsafe_get_server servers tag).2, events := events } := by
  rcases shared_new_spec max_contexts env tag version now servers pool events hfree with
    ⟨hs, _⟩ | ⟨server1, _, ⟨_, h⟩ | ⟨hlt, _, _⟩ | ⟨hlt, _, _⟩⟩
  · rw [hs] at hserver
    cases hserver
  · exact h
  · omega
  · omega

/-- C19. In the shared acquire, control reaches the capacity check when the scan has
ended without a result and a server was found for the tag. The scan ends
without a result only with the free list empty. So, when the live count is then
at least the capacity, the branch that evicts a free context cannot run: the
call waits on the condition variable, with the pool and the effects exactly as
the scan left them. On a well-formed pool whose live count is within the
capacity, that is the pool as it was at entry, and nothing has been destroyed
or created. -/
theorem capacity_check_waits (max_contexts : Nat) (env : Env) (tag : Option String)
    (version : Nat) (now : Int) (servers : List redis_server_t) (pool : redis_context_pool_t)
    (server : redis_server_t)
    (hscan : (free_scan env version now pool.free_contexts pool).result = none)
    (hserver : (unsafe_get_server servers tag).1 = some server)
    (hcap : (free_scan env version now pool.free_contexts pool).pool.ncontexts
      ≥ max_contexts) :
    (free_scan env version now pool.free_contexts pool).pool.free_contexts = [] ∧
    shared_retry max_contexts env tag version now servers pool =
      { outcome := Outcome.waiting
        pool := (free_scan env version now pool.free_contexts pool).pool
        servers := (unsafe_get_server servers tag).2
        events := (free_scan env version now pool.free_contexts pool).events } ∧
    (max_contexts < 4294967296 → pool_nodup pool → pool_accounting pool →
      pool.ncontexts ≤ max_contexts →
      pool.free_contexts = [] ∧
      shared_retry max_contexts env tag version now servers pool =
        { outcome := Outcome.waiting, pool := pool
          servers := (unsafe_get_server servers tag).2, events := [] }) := by
  have hempty := free_scan_none_empties env version now pool.free_contexts pool hscan
  have hretry : shared_retry max_contexts env tag version now servers pool =
      { outcome := Outcome.waiting
        pool := (free_scan env version now pool.free_contexts pool).pool
        servers := (unsafe_get_server servers tag).2
        events := (free_scan env version now pool.free_contexts pool).events } := by
    unfold shared_retry
    simp only [hscan]
    exact shared_new_waits max_contexts env tag version now servers _ _ server hempty
      hserver hcap
  refine ⟨hempty, hretry, ?_⟩
  intro hmax hnd hacc hle
  have hdis : ∀ x ∈ pool.free_contexts, x ∉ pool.busy_contexts := fun x hx hb =>
    (List.disjoint_of_nodup_append hnd) hx hb
  obtain ⟨pre, post, hsplit, _, hev, htag, hn, hcase⟩ :=
    free_scan_spec env version now pool.free_contexts pool hdis
  rcases hcase with ⟨hpost, _, hfree, hbusy⟩ | ⟨c, rest, _, _, hres, _, _⟩
  · have hlen : pre.length ≤ pool.ncontexts := by
      have : pre.length ≤ pool.free_contexts.length := by rw [hsplit]; simp
      unfold pool_accounting at hacc
      omega
    rw [uint_dec_iterate pre.length pool.ncontexts hlen (by omega)] at hn
    have hzero : pre.length = 0 := by
      by_contra hne
      rw [hn] at hcap
      omega
    have hpre : pre = [] := List.length_eq_zero.mp hzero
    subst hpre
    subst hpost
    have hfree0 : pool.free_contexts = [] := by rw [hsplit]; rfl
    have hpool : (free_scan env version now pool.free_contexts pool).pool = pool :=
      pool_ext _ _ htag (by rw [hn]; simp) (by rw [hfree, hfree0]) hbusy
    refine ⟨hfree0, ?_⟩
    rw [hretry, hpool, hev]
    rfl
  · rw [hres] at hscan
    cases hscan

/-- Instance of C19: capacity 1, `pool_held` (one busy context, no free one),
an acquire for tag `a`. -/
theorem capacity_check_waits_witness :
    shared_retry 1 (env_ok 1 2) (some "a") 7 1 [server_ttl] pool_held =
      { outcome := Outcome.waiting, pool := pool_held
        servers := (unsafe_get_server [server_ttl] (some "a")).2, events := [] } :=
  ((capacity_check_waits 1 (env_ok 1 2) (some "a") 7 1 [server_ttl] pool_held server_ttl
      (by decide) (by decide) (by decide)).2.2 (by decide) (by decide) (by decide)
      (by decide)).2

/-! ## C15: order of the free-list scan -/

/-- C15. Free-list scan order: when the free list of a pool (which holds no context
twice) has a valid context, it is `pre ++ c :: rest` with every context of `pre`
invalid and `c` valid, and the shared acquire returns `c`, the first valid
context in list order; its effects are the destruction of the contexts of
`pre`, in order, and nothing else (no connection is established, the server
registry is not touched); the free list afterwards is `rest`, `c` is at the
tail of the busy list, and the live count has been decremented once for each
context of `pre`. -/
theorem free_list_scan_order (max_contexts : Nat) (env : Env) (tag : Option String)
    (version : Nat) (now : Int) (servers : List redis_server_t) (pool : redis_context_pool_t)
    (hnd : pool_nodup pool)
    (hvalid : ∃ x ∈ pool.free_contexts, is_valid_context env x version now = true) :
    ∃ pre c rest, pool.free_contexts = pre ++ c :: rest ∧
      (∀ x ∈ pre, is_valid_context env x version now = false) ∧
      is_valid_context env c version now = true ∧
      shared_retry max_contexts env tag version now servers pool =
        { outcome := Outcome.returned (some c)
          pool := { pool with free_contexts := rest
                              busy_contexts := pool.busy_contexts ++ [c]
                              ncontexts := uint_dec^[pre.length] pool.ncontexts }
          servers := servers
          events := pre.map Event.free_redis_context } ∧
      (pool_accounting pool → pool.ncontexts < 4294967296 →
        uint_dec^[pre.length] pool.ncontexts = pool.ncontexts - pre.length ∧
        pre.length < pool.ncontexts) := by
  have hdis : ∀ x ∈ pool.free_contexts, x ∉ pool.busy_contexts := fun x hx hb =>
    (List.disjoint_of_nodup_append hnd) hx hb
  obtain ⟨pre, post, hsplit, hpre, hcase⟩ :=
    shared_retry_spec max_contexts env tag version now servers pool hdis
  rcases hcase with ⟨c, rest, rfl, hv, heq⟩ | ⟨rfl, _⟩
  · refine ⟨pre, c, rest, hsplit, hpre, hv, heq, ?_⟩
    intro hacc hr
    have hlen : pre.length < pool.ncontexts := by
      have : pool.free_contexts.length = pre.length + (rest.length + 1) := by
        rw [hsplit]; simp
      unfold pool_accounting at hacc
      omega
    exact ⟨uint_dec_iterate pre.length pool.ncontexts (by omega) hr, hlen⟩
  · obtain ⟨x, hx, hvx⟩ := hvalid
    rw [hsplit, List.append_nil] at hx
    rw [hpre x hx] at hvx
    cases hvx

/-- Instance of C15: free list `[ctx_old, ctx1, ctx3]`, the link of `ctx_old` in
error: the acquire destroys `ctx_old`, returns `ctx1` and leaves `ctx3` free. -/
theorem free_list_scan_order_witness :
    shared_retry 5 (env_err_on 4 8 5) (some "a") 7 4 [server_a] pool_three_free =
      { outcome := Outcome.returned (some ctx1)
        pool := { tag := "a", ncontexts := 3, free_contexts := [ctx3]
                  busy_contexts := [new_redis_context 9 server_a 7 2, ctx1] }
        servers := [server_a]
        events := [Event.free_redis_context ctx_old] } ∧
    ∃ pre c rest, pool_three_free.free_contexts = pre ++ c :: rest ∧
      (∀ x ∈ pre, is_valid_context (env_err_on 4 8 5) x 7 4 = false) ∧
      is_valid_context (env_err_on 4 8 5) c 7 4 = true ∧
      shared_retry 5 (env_err_on 4 8 5) (some "a") 7 4 [server_a] pool_three_free =
        { outcome := Outcome.returned (some c)
          pool := { pool_three_free with
            free_contexts := rest
            busy_contexts := pool_three_free.busy_contexts ++ [c]
            ncontexts := uint_dec^[pre.length] pool_three_free.ncontexts }
          servers := [server_a]
          events := pre.map Event.free_redis_context } ∧
      (pool_accounting pool_three_free → pool_three_free.ncontexts < 4294967296 →
        uint_dec^[pre.length] pool_three_free.ncontexts
          = pool_three_free.ncontexts - pre.length ∧
        pre.length < pool_three_free.ncontexts) :=
  ⟨by decide,
   free_list_scan_order 5 (env_err_on 4 8 5) (some "a") 7 4 [server_a] pool_three_free
     (by decide) ⟨ctx1, by decide, by decide⟩⟩

/-! ## C12: effect of a shared release -/

theorem pool_release_effect (pool : redis_context_pool_t) (c : redis_context_t)
    (hc : c ∈ pool.busy_contexts) (hfree : c ∉ pool.free_contexts) :
    ∃ a b, pool.busy_contexts = a ++ c :: b ∧ c ∉ a ∧
      pool_release pool c =
        { tag := pool.tag, ncontexts := pool.ncontexts
          free_contexts := pool.free_contexts ++ [c], busy_contexts := a ++ b } := by
  obtain ⟨a, b, hca, hsplit, herase⟩ := List.exists_erase_eq hc
  refine ⟨a, b, hsplit, hca, ?_⟩
  rw [pool_release_busy pool c hfree, herase]

/-- C12, evaluated on the run of C4. After the fourth acquire with the `NULL`
tag, `ctx3` is in the busy list of pool `b` and in no other list, and its
server carries the tag `a`. `free_shared_context` on `ctx3` returns normally.
It takes `ctx3` out of the busy list of pool `b` but does not append it to the
free list of pool `b`, which stays empty; and it changes the lists of another
pool: the free list of pool `a` goes from empty to `[ctx3]`. Live counts and
the fields of `ctx3` are as they were. -/
theorem release_effect_fails_after_wildcard_acquire :
    wild5.outcome = Outcome.returned (some ctx3) ∧
    ctx3.server.tag = "a" ∧
    wild5.config.pools =
      [ { tag := "a", ncontexts := 1, free_contexts := [], busy_contexts := [ctx1] }
      , { tag := "b", ncontexts := 2, free_contexts := [], busy_contexts := [ctx2, ctx3] } ] ∧
    ctx3 ∈ [ctx2, ctx3] ∧
    free_shared_context wild5.config ctx3 = some wild6 ∧
    wild6.pools =
      [ { tag := "b", ncontexts := 2, free_contexts := [], busy_contexts := [ctx2] }
      , { tag := "a", ncontexts := 1, free_contexts := [ctx3], busy_contexts := [ctx1] } ] ∧
    (∀ pool ∈ wild6.pools, pool.tag = "b" →
      ctx3 ∉ pool.busy_contexts ∧ ctx3 ∉ pool.free_contexts) ∧
    (∀ pool ∈ wild5.config.pools, pool.tag = "a" → pool.free_contexts = []) ∧
    (∀ pool ∈ wild6.pools, pool.tag = "a" → pool.free_contexts = [ctx3]) := by
  decide

/-! ## C11: eviction in a private cache of capacity 1 -/

theorem uint_inc_zero : uint_inc 0 = 1 := by decide

theorem uint_dec_one : uint_dec 1 = 0 := by decide

theorem unsafe_get_server_found (servers : List redis_server_t) (t : String)
    (h : ∃ s ∈ servers, s.tag = t) :
    ∃ s servers1, unsafe_get_server servers (some t) = (some s, servers1) ∧ s.tag = t ∧
      ∀ u, (∃ s1 ∈ servers1, s1.tag = u) ↔ (∃ s1 ∈ servers, s1.tag = u) := by
  rcases hsel : unsafe_get_server servers (some t) with ⟨r, servers1⟩
  cases r with
  | none =>
    obtain ⟨_, hall⟩ := tailq_select_none _ _ _ hsel
    obtain ⟨s, hs, hst⟩ := h
    have := hall s hs
    simp [tag_matches, hst] at this
  | some s =>
    obtain ⟨a, b, hq, _, hp, rfl⟩ := tailq_select_some _ _ _ _ hsel
    refine ⟨s, _, rfl, ?_, ?_⟩
    · have : t = s.tag := by simpa [tag_matches] using hp
      exact this.symm
    · intro u
      subst hq
      constructor
      · rintro ⟨s1, hs1, hu⟩
        refine ⟨s1, ?_, hu⟩
        simp only [List.mem_append, List.mem_singleton, List.mem_cons] at hs1 ⊢
        tauto
      · rintro ⟨s1, hs1, hu⟩
        refine ⟨s1, ?_, hu⟩
        simp only [List.mem_append, List.mem_singleton, List.mem_cons] at hs1 ⊢
        tauto

/-- An acquire for tag `t` on a private cache of capacity 1 that holds nothing or
one context of another tag, a server for `t` being configured and the
connection succeeding: whatever was cached is evicted and a new context of a
server tagged `t` is alone in the cache. -/
theorem private_acquire_capacity_one (env : Env) (config : vcl_priv_t) (version : Nat)
    (t : String) (cache : List redis_context_t)
    (hmax : config.max_contexts = 1)
    (hcache : cache = [] ∨ ∃ c, cache = [c] ∧ c.server.tag ≠ t)
    (hserver : ∃ s ∈ config.servers, s.tag = t)
    (hconn : ∀ s, new_rcontext env s = true) :
    ∃ s servers1, s.tag = t ∧
      (∀ u, (∃ s1 ∈ servers1, s1.tag = u) ↔ (∃ s1 ∈ config.servers, s1.tag = u)) ∧
      get_private_context env config
          { ncontexts := cache.length, contexts := cache, tag := some t } version =
        { outcome := Outcome.returned (some (new_redis_context env.alloc s version env.now))
          config := { config with servers := servers1 }
          state := { ncontexts := 1
                     contexts := [new_redis_context env.alloc s version env.now]
                     tag := some t }
          events := cache.map Event.free_redis_context ++ [Event.new_rcontext s] } := by
  obtain ⟨s, servers1, hsel, hst, hperm⟩ := unsafe_get_server_found config.servers t hserver
  refine ⟨s, servers1, hst, hperm, ?_⟩
  rcases hcache with rfl | ⟨c, rfl, hc⟩
  · simp [get_private_context, tailq_select, tailq_take, private_new, hsel, hmax,
      private_create, hconn, uint_inc_zero]
  · have hm : tag_matches (some t) c.server.tag = false := tag_matches_some_ne t _ hc
    simp [get_private_context, tailq_select, tailq_take, hm, private_new, hsel, hmax,
      private_create, hconn, uint_inc_zero, uint_dec_one]
/-- C11. Private-mode eviction scenario. Cache capacity 1, a server configured for
each of two distinct tags `x` and `y`, an empty cache, every connection attempt
succeeding. The acquire for `x` returns a new context `cx`; the acquire for `y`
then destroys `cx` (no cached context is a candidate, so no validity check is
involved) and leaves the cache holding only the new context `cy` of a server
tagged `y`, with live count 1; the next acquire for `x` destroys `cy`,
establishes a connection and returns the context created by it, which is not
`cx` as allocation does not hand out the serial of `cx` again. -/
theorem private_eviction_scenario (e1 e2 e3 : Env) (config : vcl_priv_t) (version : Nat)
    (x y : String) (hxy : x ≠ y) (hmax : config.max_contexts = 1)
    (hx : ∃ s ∈ config.servers, s.tag = x) (hy : ∃ s ∈ config.servers, s.tag = y)
    (hc1 : ∀ s, new_rcontext e1 s = true) (hc2 : ∀ s, new_rcontext e2 s = true)
    (hc3 : ∀ s, new_rcontext e3 s = true) :
    ∃ sx sy sx1, sx.tag = x ∧ sy.tag = y ∧ sx1.tag = x ∧
      (evict_run1 e1 config version x).outcome
        = Outcome.returned (some (new_redis_context e1.alloc sx version e1.now)) ∧
      (evict_run2 e1 e2 config version x y).outcome
        = Outcome.returned (some (new_redis_context e2.alloc sy version e2.now)) ∧
      (evict_run2 e1 e2 config version x y).events
        = [Event.free_redis_context (new_redis_context e1.alloc sx version e1.now),
           Event.new_rcontext sy] ∧
      (evict_run2 e1 e2 config version x y).state.contexts
        = [new_redis_context e2.alloc sy version e2.now] ∧
      (evict_run2 e1 e2 config version x y).state.ncontexts = 1 ∧
      (evict_run3 e1 e2 e3 config version x y).outcome
        = Outcome.returned (some (new_redis_context e3.alloc sx1 version e3.now)) ∧
      (evict_run3 e1 e2 e3 config version x y).events
        = [Event.free_redis_context (new_redis_context e2.alloc sy version e2.now),
           Event.new_rcontext sx1] ∧
      (e3.alloc ≠ e1.alloc →
        (evict_run3 e1 e2 e3 config version x y).outcome
          ≠ Outcome.returned (some (new_redis_context e1.alloc sx version e1.now))) := by
  obtain ⟨sx, servers1, hsx, hp1, h1⟩ :=
    private_acquire_capacity_one e1 config version x [] hmax (Or.inl rfl) hx hc1
  have hr1 : evict_run1 e1 config version x = _ := h1
  obtain ⟨sy, servers2, hsy, hp2, h2⟩ :=
    private_acquire_capacity_one e2 { config with servers := servers1 } version y
      [new_redis_context e1.alloc sx version e1.now] hmax
      (Or.inr ⟨_, rfl, by show sx.tag ≠ y; rw [hsx]; exact hxy⟩)
      ((hp1 y).mpr hy) hc2
  have hr2 := (show evict_run2 e1 e2 config version x y
      = get_private_context e2 { config with servers := servers1 }
          { ncontexts := [new_redis_context e1.alloc sx version e1.now].length
            contexts := [new_redis_context e1.alloc sx version e1.now], tag := some y }
          version from by unfold evict_run2; rw [hr1]; rfl).trans h2
  obtain ⟨sx1, servers3, hsx1, _, h3⟩ :=
    private_acquire_capacity_one e3 { config with servers := servers2 } version x
      [new_redis_context e2.alloc sy version e2.now] hmax
      (Or.inr ⟨_, rfl, by show sy.tag ≠ x; rw [hsy]; exact fun h => hxy h.symm⟩)
      ((hp2 x).mpr ((hp1 x).mpr hx)) hc3
  have hr3 := (show evict_run3 e1 e2 e3 config version x y
      = get_private_context e3 { config with servers := servers2 }
          { ncontexts := [new_redis_context e2.alloc sy version e2.now].length
            contexts := [new_redis_context e2.alloc sy version e2.now], tag := some x }
          version from by unfold evict_run3; rw [hr2]; rfl).trans h3
  refine ⟨sx, sy, sx1, hsx, hsy, hsx1, ?_, ?_, ?_, ?_, ?_, ?_, ?_, ?_⟩
  · rw [hr1]
  · rw [hr2]
  · rw [hr2]; rfl
  · rw [hr2]
  · rw [hr2]
  · rw [hr3]
  · rw [hr3]; rfl
  · intro hne
    rw [hr3]
    simp only [ne_eq, Outcome.returned.injEq, Option.some.injEq, new_redis_context,
      redis_context_t.mk.injEq, not_and]
    intro h
    exact absurd h hne

/-- Instance of C11 on `config_ab_one` with the tags `a` and `b`. -/
theorem private_eviction_scenario_witness :
    (evict_run1 (env_ok 0 1) config_ab_one 7 "a").outcome = Outcome.returned (some ctx1) ∧
    (evict_run2 (env_ok 0 1) (env_ok 1 2) config_ab_one 7 "a" "b").state.contexts = [ctx2] ∧
    (evict_run3 (env_ok 0 1) (env_ok 1 2) (env_ok 3 3) config_ab_one 7 "a" "b").outcome
      = Outcome.returned (some ctx3) ∧
    ∃ sx sy sx1, sx.tag = "a" ∧ sy.tag = "b" ∧ sx1.tag = "a" ∧
      (evict_run1 (env_ok 0 1) config_ab_one 7 "a").outcome
        = Outcome.returned
            (some (new_redis_context (env_ok 0 1).alloc sx 7 (env_ok 0 1).now)) ∧
      (evict_run2 (env_ok 0 1) (env_ok 1 2) config_ab_one 7 "a" "b").outcome
        = Outcome.returned
            (some (new_redis_context (env_ok 1 2).alloc sy 7 (env_ok 1 2).now)) ∧
      (evict_run2 (env_ok 0 1) (env_ok 1 2) config_ab_one 7 "a" "b").events
        = [Event.free_redis_context
             (new_redis_context (env_ok 0 1).alloc sx 7 (env_ok 0 1).now),
           Event.new_rcontext sy] ∧
      (evict_run2 (env_ok 0 1) (env_ok 1 2) config_ab_one 7 "a" "b").state.contexts
        = [new_redis_context (env_ok 1 2).alloc sy 7 (env_ok 1 2).now] ∧
      (evict_run2 (env_ok 0 1) (env_ok 1 2) config_ab_one 7 "a" "b").state.ncontexts = 1 ∧
      (evict_run3 (env_ok 0 1) (env_ok 1 2) (env_ok 3 3) config_ab_one 7 "a" "b").outcome
        = Outcome.returned
            (some (new_redis_context (env_ok 3 3).alloc sx1 7 (env_ok 3 3).now)) ∧
      (evict_run3 (env_ok 0 1) (env_ok 1 2) (env_ok 3 3) config_ab_one 7 "a" "b").events
        = [Event.free_redis_context
             (new_redis_context (env_ok 1 2).alloc sy 7 (env_ok 1 2).now),
           Event.new_rcontext sx1] ∧
      ((env_ok 3 3).alloc ≠ (env_ok 0 1).alloc →
        (evict_run3 (env_ok 0 1) (env_ok 1 2) (env_ok 3 3) config_ab_one 7 "a" "b").outcome
          ≠ Outcome.returned
              (some (new_redis_context (env_ok 0 1).alloc sx 7 (env_ok 0 1).now))) :=
  ⟨by decide, by decide, by decide,
   private_eviction_scenario (env_ok 0 1) (env_ok 1 2) (env_ok 3 3) config_ab_one 7 "a" "b"
     (by decide) rfl ⟨server_a, by decide, rfl⟩ ⟨server_b, by decide, rfl⟩
     (fun _ => rfl) (fun _ => rfl) (fun _ => rfl)⟩

/-! ## C16: one cached context per tag -/

/-- C16, evaluated on a run of four private acquires from an empty cache, capacity
5, servers `a` and `b`. The calls for `a`, for `b` and again for `a` leave the
cache as `[ctx2, ctx1]` (tags `b`, `a`) and the server registry as
`[server_a, server_b]`. The call with the `NULL` tag takes the head `ctx2` as
candidate, finds its link in error and destroys it, then selects the server at
the head of the registry, `server_a`, and creates `ctx3` on it: the cache is
`[ctx1, ctx3]`, two distinct contexts whose servers both carry the tag `a`. -/
theorem wildcard_duplicates_tag_in_cache :
    uniq1.outcome = Outcome.returned (some ctx1) ∧
    uniq2.outcome = Outcome.returned (some ctx2) ∧
    uniq3.outcome = Outcome.returned (some ctx1) ∧
    uniq3.state.contexts = [ctx2, ctx1] ∧
    uniq3.config.servers = [server_a, server_b] ∧
    uniq4.outcome = Outcome.returned (some ctx3) ∧
    uniq4.events = [Event.free_redis_context ctx2, Event.new_rcontext server_a] ∧
    uniq4.state.contexts = [ctx1, ctx3] ∧
    uniq4.state.ncontexts = 2 ∧
    ctx1.server.tag = ctx3.server.tag ∧
    ctx1 ≠ ctx3 := by
  decide

/-! ## C17: the private cache is ordered by last use -/

theorem private_create_shape (env : Env) (config : vcl_priv_t) (state : thread_state_t)
    (server : redis_server_t) (version : Nat) (now : Int) (events : List Event) :
    ((private_create env config state server version now events).outcome
        = Outcome.returned (some (new_redis_context env.alloc server version now)) ∧
      (private_create env config state server version now events).state.contexts
        = state.contexts ++ [new_redis_context env.alloc server version now] ∧
      (private_create env config state server version now events).events
        = events ++ [Event.new_rcontext server]) ∨
    ((private_create env config state server version now events).outcome
        = Outcome.returned none ∧
      (private_create env config state server version now events).state.contexts
        = state.contexts ∧
      (private_create env config state server version now events).events
        = events ++ [Event.new_rcontext server]) := by
  unfold private_create
  split
  · exact Or.inl ⟨rfl, rfl, rfl⟩
  · exact Or.inr ⟨rfl, rfl, rfl⟩

/-- The cache after the block `private_new`: the list it was given, or its tail
when the head is evicted, followed by the new context, if one is created; a
context the block destroys is the head of the list it was given. -/
theorem private_new_shape (env : Env) (config : vcl_priv_t) (state : thread_state_t)
    (version : Nat) (now : Int) (events : List Event) :
    (∃ kept, kept.Sublist state.contexts ∧
      ((∃ server, (private_new env config state version now events).outcome
            = Outcome.returned (some (new_redis_context env.alloc server version now)) ∧
          (private_new env config state version now events).state.contexts
            = kept ++ [new_redis_context env.alloc server version now]) ∨
       ((private_new env config state version now events).outcome = Outcome.returned none ∧
          (private_new env config state version now events).state.contexts = kept) ∨
       (private_new env config state version now events).outcome = Outcome.abort)) ∧
    (∀ x, Event.free_redis_context x
        ∈ (private_new env config state version now events).events →
      Event.free_redis_context x ∈ events ∨ state.contexts.head? = some x) := by
  unfold private_new
  split
  · refine ⟨⟨state.contexts, List.Sublist.refl _, Or.inr (Or.inl ⟨rfl, rfl⟩)⟩, ?_⟩
    intro x hx
    simp only [List.mem_append, List.mem_singleton] at hx
    rcases hx with hx | hx
    · exact Or.inl hx
    · cases hx
  · rename_i server servers hsel
    split
    · split
      · refine ⟨⟨state.contexts, List.Sublist.refl _, Or.inr (Or.inr rfl)⟩, ?_⟩
        intro x hx
        exact Or.inl hx
      · rename_i icontext rest hcons
        have hsub : (state.contexts.erase icontext).Sublist state.contexts :=
          List.erase_sublist _ _
        rcases private_create_shape env { config with servers := servers }
            { state with contexts := state.contexts.erase icontext
                         ncontexts := uint_dec state.ncontexts }
            server version now (events ++ [Event.free_redis_context icontext]) with
          ⟨h1, h2, h3⟩ | ⟨h1, h2, h3⟩
        · refine ⟨⟨_, hsub, Or.inl ⟨server, h1, h2⟩⟩, ?_⟩
          intro x hx
          rw [h3] at hx
          simp only [List.mem_append, List.mem_singleton, Event.free_redis_context.injEq]
            at hx
          rcases hx with (hx | hx) | hx
          · exact Or.inl hx
          · right; rw [hcons, hx]; rfl
          · cases hx
        · refine ⟨⟨_, hsub, Or.inr (Or.inl ⟨h1, h2⟩)⟩, ?_⟩
          intro x hx
          rw [h3] at hx
          simp only [List.mem_append, List.mem_singleton, Event.free_redis_context.injEq]
            at hx
          rcases hx with (hx | hx) | hx
          · exact Or.inl hx
          · right; rw [hcons, hx]; rfl
          · cases hx
    · rcases private_create_shape env { config with servers := servers } state
          server version now events with ⟨h1, h2, h3⟩ | ⟨h1, h2, h3⟩
      · refine ⟨⟨_, List.Sublist.refl _, Or.inl ⟨server, h1, h2⟩⟩, ?_⟩
        intro x hx
        rw [h3] at hx
        simp only [List.mem_append, List.mem_singleton] at hx
        rcases hx with hx | hx
        · exact Or.inl hx
        · cases hx
      · refine ⟨⟨_, List.Sublist.refl _, Or.inr (Or.inl ⟨h1, h2⟩)⟩, ?_⟩
        intro x hx
        rw [h3] at hx
        simp only [List.mem_append, List.mem_singleton] at hx
        rcases hx with hx | hx
        · exact Or.inl hx
        · cases hx
theorem filter_ne_of_not_mem (l : List redis_context_t) (c : redis_context_t) (h : c ∉ l) :
    l.filter (fun y => decide (some c ≠ some y)) = l := by
  rw [List.filter_eq_self]
  intro y hy
  simp only [ne_eq, Option.some.injEq, decide_not, Bool.not_eq_eq_eq_not, Bool.not_true,
    decide_eq_false_iff_not]
  intro heq
  exact h (heq ▸ hy)

/-- The cache after a private acquire: a sublist `kept` of the cache before, in
the same order, followed by the context returned, if any; and a context the
call destroys is its reuse candidate or the head of the rest of the cache. -/
theorem get_private_context_shape (env : Env) (config : vcl_priv_t) (state : thread_state_t)
    (version : Nat) (hnd : state.contexts.Nodup) :
    (∃ kept, kept.Sublist state.contexts ∧
      ((∃ c, (get_private_context env config state version).outcome
            = Outcome.returned (some c) ∧ c ∈ state.contexts ∧ c ∉ kept ∧
          (get_private_context env config state version).state.contexts = kept ++ [c]) ∨
       (∃ server, (get_private_context env config state version).outcome
            = Outcome.returned (some (new_redis_context env.alloc server version env.now)) ∧
          (get_private_context env config state version).state.contexts
            = kept ++ [new_redis_context env.alloc server version env.now]) ∨
       ((get_private_context env config state version).outcome = Outcome.returned none ∧
          (get_private_context env config state version).state.contexts = kept) ∨
       (get_private_context env config state version).outcome = Outcome.abort)) ∧
    (∀ x, Event.free_redis_context x
        ∈ (get_private_context env config state version).events →
      (tailq_select (fun icontext => tag_matches state.tag icontext.server.tag)
        state.contexts).1 = some x ∨
      (cache_without_candidate state state.tag).head? = some x) := by
  unfold cache_without_candidate
  rcases hts : tailq_select (fun icontext => tag_matches state.tag icontext.server.tag)
    state.contexts with ⟨r, contexts1⟩
  cases r with
  | none =>
    obtain ⟨rfl, _⟩ := tailq_select_none _ _ _ hts
    rw [hts]
    have hg : get_private_context env config state version =
        private_new env config state version env.now [] := by
      unfold get_private_context
      rw [hts]
    rw [hg]
    obtain ⟨⟨kept, hsub, hcase⟩, hfreed⟩ :=
      private_new_shape env config state version env.now []
    refine ⟨⟨kept, hsub, Or.inr hcase⟩, ?_⟩
    intro x hx
    rcases hfreed x hx with h | h
    · cases h
    · right
      have hfilter : state.contexts.filter
          (fun c => decide ((none : Option redis_context_t) ≠ some c)) = state.contexts := by
        rw [List.filter_eq_self]
        intro y _
        simp
      show (state.contexts.filter
        (fun c => decide ((none : Option redis_context_t) ≠ some c))).head? = some x
      rw [hfilter]
      exact h
  | some c =>
    obtain ⟨a, b, hq, _, _, rfl⟩ := tailq_select_some _ _ _ _ hts
    rw [hts]
    rw [hq] at hnd
    have hca : c ∉ a := fun h => (List.disjoint_of_nodup_append hnd) h (by simp)
    have hcb : c ∉ b := (List.nodup_cons.mp (List.nodup_append.mp hnd).2.1).1
    have hcab : c ∉ a ++ b := by simp [hca, hcb]
    have hsub : (a ++ b).Sublist state.contexts := by
      rw [hq]
      exact (List.Sublist.refl a).append (List.sublist_cons_self c b)
    by_cases hv : is_valid_context env c version env.now = true
    · have hg : get_private_context env config state version =
          { outcome := Outcome.returned (some c), config := config
            state := { state with contexts := a ++ b ++ [c] }, events := [] } := by
        unfold get_private_context
        rw [hts]
        simp only [hv, if_true]
      rw [hg]
      refine ⟨⟨a ++ b, hsub, Or.inl ⟨c, rfl, by rw [hq]; simp, hcab, rfl⟩⟩, ?_⟩
      intro x hx
      simp at hx
    · have herase : (a ++ b ++ [c]).erase c = a ++ b := by
        rw [List.erase_append_right _ hcab]
        simp
      have hg : get_private_context env config state version =
          private_new env config
            { state with contexts := a ++ b, ncontexts := uint_dec state.ncontexts }
            version env.now [Event.free_redis_context c] := by
        unfold get_private_context
        rw [hts]
        simp only [hv, herase, Bool.false_eq_true, if_false]
      rw [hg]
      obtain ⟨⟨kept, hsub1, hcase⟩, hfreed⟩ := private_new_shape env config
        { state with contexts := a ++ b, ncontexts := uint_dec state.ncontexts }
        version env.now [Event.free_redis_context c]
      refine ⟨⟨kept, hsub1.trans hsub, Or.inr hcase⟩, ?_⟩
      intro x hx
      rcases hfreed x hx with h | h
      · left
        simp only [List.mem_singleton, Event.free_redis_context.injEq] at h
        rw [h]
      · right
        show (state.contexts.filter (fun y => decide (some c ≠ some y))).head? = some x
        have hfilter : state.contexts.filter (fun y => decide (some c ≠ some y)) = a ++ b := by
          rw [hq, List.filter_append, List.filter_cons]
          simp only [ne_eq, not_true_eq_false, decide_False, Bool.false_eq_true, if_false]
          have h1 := filter_ne_of_not_mem a c hca
          have h2 := filter_ne_of_not_mem b c hcb
          simp only [ne_eq] at h1 h2
          rw [h1, h2]
        rw [hfilter]
        exact h
theorem lru_ordered_nodup (s : private_sys) (h : lru_ordered s) : s.state.contexts.Nodup :=
  h.1.imp (fun hlt heq => by rw [heq] at hlt; exact lt_irrefl _ hlt)

theorem lru_ordered_append (s : private_sys) (kept : List redis_context_t)
    (c : redis_context_t) (hinv : lru_ordered s) (hsub : kept.Sublist s.state.contexts)
    (hc : c ∉ kept) :
    (kept ++ [c]).Pairwise (fun a b =>
        (if some c = some a then s.calls + 1 else s.last_returned a)
          < (if some c = some b then s.calls + 1 else s.last_returned b)) ∧
    ∀ y ∈ kept ++ [c],
      (if some c = some y then s.calls + 1 else s.last_returned y) ≤ s.calls + 1 := by
  have hkept : ∀ y ∈ kept, (if some c = some y then s.calls + 1 else s.last_returned y)
      = s.last_returned y := by
    intro y hy
    have : ¬ (some c = some y) := fun h => hc (by cases h; exact hy)
    rw [if_neg this]
  have hle : ∀ y ∈ kept, s.last_returned y ≤ s.calls := fun y hy => hinv.2 y (hsub.subset hy)
  constructor
  · rw [List.pairwise_append]
    refine ⟨?_, List.pairwise_singleton _ _, ?_⟩
    · refine (hinv.1.sublist hsub).imp_of_mem ?_
      intro a b ha hb hlt
      rw [hkept a ha, hkept b hb]
      exact hlt
    · intro a ha b hb
      rw [List.mem_singleton] at hb
      subst hb
      rw [hkept a ha, if_pos rfl]
      have := hle a ha
      omega
  · intro y hy
    rw [List.mem_append, List.mem_singleton] at hy
    rcases hy with hy | rfl
    · rw [hkept y hy]
      have := hle y hy
      omega
    · rw [if_pos rfl]

theorem private_step_ordered (s s1 : private_sys) (call : private_call)
    (hinv : lru_ordered s) (hfresh : ∀ x ∈ s.state.contexts, x.id ≠ call.env.alloc)
    (hstep : private_step s call = some s1) : lru_ordered s1 := by
  obtain ⟨⟨kept, hsub, hcase⟩, _⟩ := get_private_context_shape call.env s.config
    (with_tag s.state call.tag) call.version (lru_ordered_nodup s hinv)
  have hsub1 : kept.Sublist s.state.contexts := hsub
  have hret : ∀ c, (get_private_context call.env s.config (with_tag s.state call.tag)
        call.version).outcome = Outcome.returned (some c) → c ∉ kept →
      (get_private_context call.env s.config (with_tag s.state call.tag)
        call.version).state.contexts = kept ++ [c] → lru_ordered s1 := by
    intro c hout hc hctx
    unfold private_step at hstep
    rw [hout] at hstep
    have hs1 := Option.some.inj hstep
    subst hs1
    unfold lru_ordered
    dsimp only
    rw [hctx]
    exact lru_ordered_append s kept c hinv hsub1 hc
  rcases hcase with ⟨c, hout, _, hc, hctx⟩ | ⟨server, hout, hctx⟩ | ⟨hout, hctx⟩ | hout
  · exact hret c hout hc hctx
  · refine hret _ hout ?_ hctx
    intro hmem
    exact hfresh _ (hsub1.subset hmem) rfl
  · unfold private_step at hstep
    rw [hout] at hstep
    have hs1 := Option.some.inj hstep
    subst hs1
    unfold lru_ordered
    dsimp only
    rw [hctx]
    refine ⟨?_, ?_⟩
    · simp only [reduceCtorEq, if_false]
      exact hinv.1.sublist hsub1
    · intro y hy
      simp only [reduceCtorEq, if_false]
      have := hinv.2 y (hsub1.subset hy)
      omega
  · unfold private_step at hstep
    rw [hout] at hstep
    cases hstep

theorem private_trace_ordered :
    ∀ (calls : List private_call) (s : private_sys), lru_ordered s →
      private_fresh calls s = true →
      ∀ s1 ∈ private_trace calls s, lru_ordered s1 := by
  intro calls
  induction calls with
  | nil => intro s _ _ s1 h; simp [private_trace] at h
  | cons call calls ih =>
    intro s hinv hfr s1 h
    simp only [private_trace] at h
    simp only [private_fresh, Bool.and_eq_true, decide_eq_true_eq] at hfr
    cases hstep : private_step s call with
    | none => simp [hstep] at h
    | some s2 =>
      simp only [hstep, List.mem_cons] at h hfr
      have hs2 := private_step_ordered s s2 call hinv hfr.1 hstep
      rcases h with rfl | h
      · exact hs2
      · exact ih s2 hs2 hfr.2 s1 h

theorem evicted_is_least_recent (s : private_sys) (hinv : lru_ordered s)
    (call : private_call) (x : redis_context_t)
    (hx : Event.free_redis_context x ∈ (get_private_context call.env s.config
      (with_tag s.state call.tag) call.version).events) :
    (tailq_select (fun icontext => tag_matches call.tag icontext.server.tag)
      s.state.contexts).1 = some x ∨
    ((cache_without_candidate s.state call.tag).head? = some x ∧
      ∀ c ∈ cache_without_candidate s.state call.tag, c ≠ x →
        s.last_returned x < s.last_returned c) := by
  obtain ⟨_, hfreed⟩ := get_private_context_shape call.env s.config
    (with_tag s.state call.tag) call.version (lru_ordered_nodup s hinv)
  rcases hfreed x hx with h | h
  · exact Or.inl h
  · right
    have h1 : (cache_without_candidate s.state call.tag).head? = some x := h
    refine ⟨h1, ?_⟩
    have hp : (cache_without_candidate s.state call.tag).Pairwise
        (fun a b => s.last_returned a < s.last_returned b) :=
      hinv.1.sublist (List.filter_sublist _)
    cases hl : cache_without_candidate s.state call.tag with
    | nil => rw [hl] at h1; cases h1
    | cons y rest =>
      rw [hl] at h1 hp
      simp only [List.head?_cons, Option.some.injEq] at h1
      subst h1
      intro c hc hne
      rcases List.mem_cons.mp hc with rfl | hc
      · exact absurd rfl hne
      · exact (List.pairwise_cons.mp hp).1 c hc
/-- C17. LRU eviction in the private cache. Along every run of private acquires
from an empty cache (an allocation yielding an object that is not cached), in
the initial state and after every acquire, the cache list is ordered by the
rank of the acquire that last returned each context, oldest first. Hence, for
any acquire made in such a state, a context the acquire destroys is either its
reuse candidate (found invalid) or the evicted one, and the evicted one is the
head of the cache list, the candidate set aside, and was last returned before
every other context of that list. -/
theorem lru_eviction (config : vcl_priv_t) (calls : List private_call)
    (hfresh : private_fresh calls (private_init config) = true) :
    ∀ s ∈ private_init config :: private_trace calls (private_init config),
      lru_ordered s ∧
      ∀ (call : private_call) (x : redis_context_t),
        Event.free_redis_context x ∈ (get_private_context call.env s.config
          (with_tag s.state call.tag) call.version).events →
        (tailq_select (fun icontext => tag_matches call.tag icontext.server.tag)
          s.state.contexts).1 = some x ∨
        ((cache_without_candidate s.state call.tag).head? = some x ∧
          ∀ c ∈ cache_without_candidate s.state call.tag, c ≠ x →
            s.last_returned x < s.last_returned c) := by
  have hinit : lru_ordered (private_init config) :=
    ⟨List.Pairwise.nil, fun c hc => by cases hc⟩
  intro s hs
  have hinv : lru_ordered s := by
    rcases List.mem_cons.mp hs with rfl | hs
    · exact hinit
    · exact private_trace_ordered calls _ hinit hfresh s hs
  exact ⟨hinv, fun call x hx => evicted_is_least_recent s hinv call x hx⟩

/-- Instance of C17 with capacity 2: after the acquires for `a`, `b` and `a` the
cache is `[ctx2, ctx1]`; the acquire for `c` destroys `ctx2`, the head, although
`ctx1` was created first; and the order holds in every state of the run. -/
theorem lru_eviction_witness :
    (private_trace lru_calls (private_init config_abc_two)).map (fun s => s.state.contexts)
      = [[ctx1], [ctx1, ctx2], [ctx2, ctx1], [ctx1, new_redis_context 4 server_c 7 3]] ∧
    ∀ s ∈ private_init config_abc_two :: private_trace lru_calls (private_init config_abc_two),
      lru_ordered s ∧
      ∀ (call : private_call) (x : redis_context_t),
        Event.free_redis_context x ∈ (get_private_context call.env s.config
          (with_tag s.state call.tag) call.version).events →
        (tailq_select (fun icontext => tag_matches call.tag icontext.server.tag)
          s.state.contexts).1 = some x ∨
        ((cache_without_candidate s.state call.tag).head? = some x ∧
          ∀ c ∈ cache_without_candidate s.state call.tag, c ≠ x →
            s.last_returned x < s.last_returned c) :=
  ⟨by decide, lru_eviction config_abc_two lru_calls (by decide)⟩

end VmodRedis
